import Mathlib

/-!
Shallow embedding of the mutable tree structure of `anytree`
(`src/anytree/node/typed_node.py` and `src/anytree/node/mutual_link.py`).

A Python heap of `TypedNode` objects is modelled as a `Forest`:
* node identity (`id(obj)`) becomes a `Nat` key into an association list
  `nodes : List (Nat × NodeData)`;
* each `MutualLink` object likewise gets a `Nat` identity into
  `links : List (Nat × MutualLink)`; freshness of newly created link objects
  is modelled by the counter `nextLink`;
* the lifecycle hooks (`_pre_attach`, `_post_attach`, `_pre_detach`,
  `_post_detach` and their `_children` batch forms) are no-ops on the tree in
  `TypedNode` itself; we record their invocations in an event `log` so that
  claims about "no hooks fire" are expressible.

Every mutating method returns the final heap together with an optional
raised exception (`Option Err`): Python exceptions propagate while any heap
mutation already performed persists, so a raising operation still has a
resulting heap.
-/

namespace Anytree

/-- The payload and the two private link fields of a `TypedNode`:
`self.value`, `self.__parent_link : Optional[MutualLink]`,
`self.__child_links : list[MutualLink]` (typed_node.py lines 22-24).
The pydantic payload is irrelevant to the tree structure; it is kept as a
bare `Nat`. -/
structure NodeData where
  value : Nat
  parent_link : Option Nat
  child_links : List Nat
  deriving Repr, DecidableEq

/-- `MutualLink` (mutual_link.py): a pair of optional endpoints.  `TypedNode`
always constructs links with both ends set (`MutualLink(left=parent,
right=self)`), but the class itself defaults both to `None`, and the
`children` getter filters `None` rights, so both fields stay optional. -/
structure MutualLink where
  left : Option Nat
  right : Option Nat
  deriving Repr, DecidableEq

/-- Invocations of the eight lifecycle hooks, recorded in order. -/
inductive Event where
  | preDetach (child par : Nat)
  | postDetach (child par : Nat)
  | preAttach (child par : Nat)
  | postAttach (child par : Nat)
  | preAttachChildren (n : Nat) (cs : List Nat)
  | postAttachChildren (n : Nat) (cs : List Nat)
  | preDetachChildren (n : Nat) (cs : List Nat)
  | postDetachChildren (n : Nat) (cs : List Nat)
  deriving Repr, DecidableEq

/-- The exceptions the modelled code can raise. `attributeError` models
Python's `AttributeError` from `None.ancestors`; `valueError` models
`list.remove` on a missing element; `assertionError` models a failing
`assert` statement. -/
inductive Err where
  | loopError
  | treeError
  | attributeError
  | valueError
  | assertionError
  deriving Repr, DecidableEq

/-- The Python heap restricted to `TypedNode` and `MutualLink` objects,
plus the hook-invocation log. -/
structure Forest where
  nodes : List (Nat × NodeData)
  links : List (Nat × MutualLink)
  nextLink : Nat
  log : List Event
  deriving Repr, DecidableEq

def Forest.empty : Forest := ⟨[], [], 0, []⟩

/-- Association-list lookup (first entry with the given key). -/
def lookupA {α : Type} : List (Nat × α) → Nat → Option α
  | [], _ => none
  | e :: rest, k => if e.1 = k then some e.2 else lookupA rest k

/-- Association-list in-place update of every entry with the given key
(object mutation: all references observe the new value). -/
def updateA {α : Type} (m : List (Nat × α)) (k : Nat) (f : α → α) : List (Nat × α) :=
  m.map (fun e => if e.1 = k then (e.1, f e.2) else e)

/-- Dereference a node id.  A Python reference always points at a live
object; ids outside the heap (which never arise from the modelled code)
dereference to an inert default. -/
def getNode (s : Forest) (n : Nat) : NodeData :=
  (lookupA s.nodes n).getD ⟨0, none, []⟩

/-- Dereference a link id. -/
def getLink (s : Forest) (l : Nat) : MutualLink :=
  (lookupA s.links l).getD ⟨none, none⟩

/-- The ids of the nodes that exist on the heap. -/
def domain (s : Forest) : List Nat := s.nodes.map Prod.fst

/-- The ids of the links that exist on the heap. -/
def linkDom (s : Forest) : List Nat := s.links.map Prod.fst

def updNode (s : Forest) (n : Nat) (f : NodeData → NodeData) : Forest :=
  { s with nodes := updateA s.nodes n f }

def logEvent (s : Forest) (e : Event) : Forest :=
  { s with log := s.log ++ [e] }

/-- `TypedNode.parent` getter (lines 32-34):
`self.__parent_link.left if self.__parent_link is not None else None`. -/
def parent (s : Forest) (n : Nat) : Option Nat :=
  match (getNode s n).parent_link with
  | none => none
  | some lid => (getLink s lid).left

/-- `TypedNode.children` getter (lines 86-88):
`list(filter(lambda x: x is not None, [link.right for link in self.__child_links]))`. -/
def children (s : Forest) (n : Nat) : List Nat :=
  (((getNode s n).child_links).map (fun lid => (getLink s lid).right)).filterMap id

/-- Fuel used to run the `while node is not None` parent walk.  In an acyclic
heap a parent chain visits pairwise distinct nodes, all but the last on the
heap, so `#nodes + 1` steps always suffice; on a cyclic heap the Python
generator would not terminate and the fuel truncates the walk. -/
def fuelOf (s : Forest) : Nat := s.nodes.length + 1

/-- `TypedNode.iter_path_reverse` (lines 153-177): yield `self`, then walk up
through `parent` references until `None`. -/
def iterPathReverse (s : Forest) : Nat → Nat → List Nat
  | 0, _ => []
  | fuel + 1, n =>
    n :: (match parent s n with
          | none => []
          | some p => iterPathReverse s fuel p)

/-- `TypedNode._path` / `TypedNode.path` (lines 135-151, 179-181):
`list(reversed(list(self.iter_path_reverse())))`. -/
def pathOf (s : Forest) (n : Nat) : List Nat :=
  (iterPathReverse s (fuelOf s) n).reverse

/-- `TypedNode.ancestors` (lines 183-201): `[]` if no parent, else
`self.parent.path`. -/
def ancestors (s : Forest) (n : Nat) : List Nat :=
  match parent s n with
  | none => []
  | some p => pathOf s p

/-- `TypedNode.__check_loop` (lines 48-54), called with the prospective
parent.  Passing `None` (`pa = none`) falls through `parent is self`
(false: `self` is a node object) into `parent.ancestors`, which raises
`AttributeError` on `None`. -/
def checkLoop (s : Forest) (self : Nat) (pa : Option Nat) : Option Err :=
  match pa with
  | none => some .attributeError
  | some p =>
    if p = self then some .loopError
    else if (ancestors s p).any (· == self) then some .loopError
    else none

/-- `TypedNode.__detach` (lines 56-71).  The source asserts
`parent is not None, "Tree is corrupt."`; `list.remove` raises `ValueError`
when the link is absent from the parent's `__child_links`. -/
def detach (s : Forest) (self : Nat) : Forest × Option Err :=
  match (getNode s self).parent_link with
  | none => (s, none)
  | some lid =>
    match (getLink s lid).left with
    | none => (s, some .assertionError)
    | some p =>
      let s1 := logEvent s (.preDetach self p)
      if lid ∈ (getNode s1 p).child_links then
        let s2 := updNode s1 p (fun d => { d with child_links := d.child_links.erase lid })
        let s3 := updNode s2 self (fun d => { d with parent_link := none })
        (logEvent s3 (.postDetach self p), none)
      else (s1, some .valueError)

/-- `TypedNode.__attach` (lines 73-84).  The source asserts
`not any(child is self for child in parent.children), "Tree is corrupt."`,
then creates `MutualLink(left=parent, right=self)`, stores it as
`self.__parent_link` and appends it to `parent.__child_links`. -/
def attach (s : Forest) (self p : Nat) : Forest × Option Err :=
  if (children s p).any (· == self) then (s, some .assertionError)
  else
    let s1 := logEvent s (.preAttach self p)
    let lid := s1.nextLink
    let s2 : Forest := { s1 with links := s1.links ++ [(lid, ⟨some p, some self⟩)],
                                 nextLink := lid + 1 }
    let s3 := updNode s2 self (fun d => { d with parent_link := some lid })
    let s4 := updNode s3 p (fun d => { d with child_links := d.child_links ++ [lid] })
    (logEvent s4 (.postAttach self p), none)

/-- `TypedNode.parent` setter (lines 36-41): check the loop, then mutate only
when the new parent is not identity-equal to the current one. -/
def setParent (s : Forest) (self : Nat) (pa : Option Nat) : Forest × Option Err :=
  match checkLoop s self pa with
  | some e => (s, some e)
  | none =>
    match pa with
    | none => (s, some .attributeError)
    | some p =>
      if parent s self = some p then (s, none)
      else
        match detach s self with
        | (s', some e) => (s', some e)
        | (s', none) => attach s' self p

/-- `TypedNode.parent` deleter (lines 43-46):
`if self.parent is not None: self.__detach()`. -/
def delParent (s : Forest) (self : Nat) : Forest × Option Err :=
  match parent s self with
  | none => (s, none)
  | some _ => detach s self

/-- `TypedNode.__check_children` (lines 90-99): walk the list with a `seen`
set of ids, raising `TreeError` at the first repeated node. -/
def checkChildrenAux : List Nat → List Nat → Option Err
  | _, [] => none
  | seen, c :: rest =>
    if c ∈ seen then some .treeError
    else checkChildrenAux (c :: seen) rest

def checkChildren (cs : List Nat) : Option Err :=
  checkChildrenAux [] cs

/-- The `for child in children: child.__check_loop(self)` loop of the
`children` setter (lines 106-107). -/
def checkLoopAll (s : Forest) (self : Nat) : List Nat → Option Err
  | [] => none
  | c :: rest =>
    match checkLoop s c (some self) with
    | some e => some e
    | none => checkLoopAll s self rest

/-- The `for child in children: child.parent = self` loop of the `children`
setter (lines 110-111); an exception aborts the loop and propagates. -/
def setChildrenLoop (self : Nat) : Forest → List Nat → Forest × Option Err
  | s, [] => (s, none)
  | s, c :: rest =>
    match setParent s c (some self) with
    | (s', some e) => (s', some e)
    | (s', none) => setChildrenLoop self s' rest

/-- `TypedNode.children` setter (lines 101-113): duplicate check, loop check
for every candidate, batch pre-hook, reparent loop, batch post-hook, and the
final `assert len(self.children) == len(children)`. -/
def setChildren (s : Forest) (self : Nat) (cs : List Nat) : Forest × Option Err :=
  match checkChildren cs with
  | some e => (s, some e)
  | none =>
    match checkLoopAll s self cs with
    | some e => (s, some e)
    | none =>
      let s1 := logEvent s (.preAttachChildren self cs)
      match setChildrenLoop self s1 cs with
      | (s2, some e) => (s2, some e)
      | (s2, none) =>
        let s3 := logEvent s2 (.postAttachChildren self cs)
        if (children s3 self).length = cs.length then (s3, none)
        else (s3, some .assertionError)

/-- The `for child in self.children: del child.parent` loop of the `children`
deleter (lines 119-120). -/
def delChildrenLoop : Forest → List Nat → Forest × Option Err
  | s, [] => (s, none)
  | s, c :: rest =>
    match delParent s c with
    | (s', some e) => (s', some e)
    | (s', none) => delChildrenLoop s' rest

/-- `TypedNode.children` deleter (lines 115-121): snapshot the children for
the hooks, fire the batch pre-hook, clear each child's parent (iterating over
a fresh read of `self.children`), fire the batch post-hook. -/
def delChildren (s : Forest) (self : Nat) : Forest × Option Err :=
  let cs := children s self
  let s1 := logEvent s (.preDetachChildren self cs)
  match delChildrenLoop s1 (children s1 self) with
  | (s2, some e) => (s2, some e)
  | (s2, none) => (logEvent s2 (.postDetachChildren self cs), none)

/-- `TypedNode.__init__` (lines 19-30): create the node with empty links,
then run the `parent` setter and the `children` setter when the respective
arguments are given; an exception from the parent setter propagates before
the children are assigned. -/
def newNode (s : Forest) (n v : Nat) (pa : Option Nat) (cs : Option (List Nat)) :
    Forest × Option Err :=
  let s0 : Forest := { s with nodes := s.nodes ++ [(n, ⟨v, none, []⟩)] }
  match pa with
  | none =>
    match cs with
    | none => (s0, none)
    | some l => setChildren s0 n l
  | some p =>
    match setParent s0 n (some p) with
    | (s1, some e) => (s1, some e)
    | (s1, none) =>
      match cs with
      | none => (s1, none)
      | some l => setChildren s1 n l

/-- `TypedNode.height` (lines 276-295): `0` when there are no children, else
`max(child.height for child in self.children) + 1`.  The recursion follows
child links; fuel truncates it exactly as Python's recursion limit would on a
cyclic heap. -/
def height (s : Forest) : Nat → Nat → Nat
  | 0, _ => 0
  | fuel + 1, n =>
    if (children s n).length = 0 then 0
    else ((children s n).map (height s fuel)).foldl max 0 + 1

def heightD (s : Forest) (n : Nat) : Nat := height s (fuelOf s) n

/-- `TypedNode.depth` (lines 297-317): `enumerate(self.iter_path_reverse())`
leaves `depth` holding `count - 1`. -/
def depthD (s : Forest) (n : Nat) : Nat :=
  (iterPathReverse s (fuelOf s) n).length - 1

/-! ### Association-list lemmas -/

theorem lookupA_nil {α : Type} (k : Nat) : lookupA ([] : List (Nat × α)) k = none := rfl

theorem lookupA_cons {α : Type} (a : Nat) (v : α) (m : List (Nat × α)) (k : Nat) :
    lookupA ((a, v) :: m) k = if a = k then some v else lookupA m k := rfl

theorem lookupA_updateA_self {α : Type} (m : List (Nat × α)) (k : Nat) (f : α → α) :
    lookupA (updateA m k f) k = (lookupA m k).map f := by
  induction m with
  | nil => rfl
  | cons e m ih =>
    obtain ⟨a, v⟩ := e
    by_cases h : a = k <;> simp [updateA, lookupA_cons, h] at ih ⊢ <;> exact ih

theorem lookupA_updateA_ne {α : Type} (m : List (Nat × α)) (k k' : Nat) (f : α → α)
    (h : k' ≠ k) : lookupA (updateA m k f) k' = lookupA m k' := by
  induction m with
  | nil => rfl
  | cons e m ih =>
    obtain ⟨a, v⟩ := e
    by_cases ha : a = k
    · subst ha
      simp [updateA, lookupA_cons, Ne.symm h] at ih ⊢
      exact ih
    · simp only [updateA, List.map_cons, if_neg ha] at ih ⊢
      by_cases hk : a = k' <;> simp [lookupA_cons, hk] <;> exact ih

theorem lookupA_append_of_some {α : Type} {m : List (Nat × α)} {k : Nat} {v : α}
    (m' : List (Nat × α)) (h : lookupA m k = some v) :
    lookupA (m ++ m') k = some v := by
  induction m with
  | nil => simp [lookupA_nil] at h
  | cons e m ih =>
    obtain ⟨a, w⟩ := e
    rw [lookupA_cons] at h
    by_cases ha : a = k
    · rw [if_pos ha] at h
      rw [List.cons_append, lookupA_cons, if_pos ha, h]
    · simp only [if_neg ha] at h
      simpa [lookupA_cons, ha] using ih h

theorem lookupA_append_of_none {α : Type} {m : List (Nat × α)} {k : Nat}
    (m' : List (Nat × α)) (h : lookupA m k = none) :
    lookupA (m ++ m') k = lookupA m' k := by
  induction m with
  | nil => simp
  | cons e m ih =>
    obtain ⟨a, w⟩ := e
    rw [lookupA_cons] at h
    by_cases ha : a = k
    · simp [ha] at h
    · simp only [if_neg ha] at h
      simpa [lookupA_cons, ha] using ih h

theorem keys_updateA {α : Type} (m : List (Nat × α)) (k : Nat) (f : α → α) :
    (updateA m k f).map Prod.fst = m.map Prod.fst := by
  induction m with
  | nil => rfl
  | cons e m ih =>
    obtain ⟨a, v⟩ := e
    by_cases h : a = k <;> simp [updateA, h] at ih ⊢ <;> exact ih

theorem lookupA_isSome_iff {α : Type} (m : List (Nat × α)) (k : Nat) :
    (lookupA m k).isSome ↔ k ∈ m.map Prod.fst := by
  induction m with
  | nil => simp [lookupA_nil]
  | cons e m ih =>
    obtain ⟨a, v⟩ := e
    rw [lookupA_cons]
    by_cases h : a = k <;> simp [h, ih]
    exact fun he => absurd he.symm h

theorem lookupA_eq_none_iff {α : Type} (m : List (Nat × α)) (k : Nat) :
    lookupA m k = none ↔ k ∉ m.map Prod.fst := by
  rw [← lookupA_isSome_iff, Option.isSome_iff_ne_none]
  tauto

theorem updateA_of_not_mem {α : Type} (m : List (Nat × α)) (k : Nat) (f : α → α)
    (h : k ∉ m.map Prod.fst) : updateA m k f = m := by
  induction m with
  | nil => rfl
  | cons e m ih =>
    obtain ⟨a, v⟩ := e
    simp only [List.map_cons, List.mem_cons, not_or] at h
    simp only [updateA, List.map_cons, if_neg (Ne.symm h.1)] at ih ⊢
    rw [ih h.2]

/-! ### Heap-accessor lemmas -/

theorem getNode_logEvent (s : Forest) (e : Event) (n : Nat) :
    getNode (logEvent s e) n = getNode s n := rfl

theorem getLink_logEvent (s : Forest) (e : Event) (l : Nat) :
    getLink (logEvent s e) l = getLink s l := rfl

theorem getLink_updNode (s : Forest) (n : Nat) (f : NodeData → NodeData) (l : Nat) :
    getLink (updNode s n f) l = getLink s l := rfl

theorem domain_logEvent (s : Forest) (e : Event) : domain (logEvent s e) = domain s := rfl

theorem linkDom_logEvent (s : Forest) (e : Event) : linkDom (logEvent s e) = linkDom s := rfl

theorem linkDom_updNode (s : Forest) (n : Nat) (f : NodeData → NodeData) :
    linkDom (updNode s n f) = linkDom s := rfl

theorem domain_updNode (s : Forest) (n : Nat) (f : NodeData → NodeData) :
    domain (updNode s n f) = domain s := by
  simp [domain, updNode, keys_updateA]

theorem mem_domain_iff (s : Forest) (n : Nat) :
    n ∈ domain s ↔ (lookupA s.nodes n).isSome := (lookupA_isSome_iff _ _).symm

theorem getNode_updNode_self (s : Forest) (n : Nat) (f : NodeData → NodeData)
    (h : n ∈ domain s) : getNode (updNode s n f) n = f (getNode s n) := by
  rw [mem_domain_iff] at h
  obtain ⟨d, hd⟩ := Option.isSome_iff_exists.mp h
  simp [getNode, updNode, lookupA_updateA_self, hd]

theorem getNode_updNode_ne (s : Forest) (n : Nat) (f : NodeData → NodeData) (m : Nat)
    (h : m ≠ n) : getNode (updNode s n f) m = getNode s m := by
  simp [getNode, updNode, lookupA_updateA_ne _ _ _ _ h]

theorem getNode_not_mem (s : Forest) (n : Nat) (h : n ∉ domain s) :
    getNode s n = ⟨0, none, []⟩ := by
  simp only [domain] at h
  rw [← lookupA_eq_none_iff] at h
  simp [getNode, h]

theorem parent_logEvent (s : Forest) (e : Event) (n : Nat) :
    parent (logEvent s e) n = parent s n := rfl

theorem children_logEvent (s : Forest) (e : Event) (n : Nat) :
    children (logEvent s e) n = children s n := rfl

theorem parent_of_not_mem (s : Forest) (n : Nat) (h : n ∉ domain s) :
    parent s n = none := by
  simp [parent, getNode_not_mem s n h]

theorem children_of_not_mem (s : Forest) (n : Nat) (h : n ∉ domain s) :
    children s n = [] := by
  simp [children, getNode_not_mem s n h]

theorem mem_domain_of_parent (s : Forest) (n : Nat) {p : Nat}
    (h : parent s n = some p) : n ∈ domain s := by
  by_contra hn
  rw [parent_of_not_mem s n hn] at h
  exact Option.noConfusion h

theorem mem_domain_of_children_ne (s : Forest) (n : Nat)
    (h : children s n ≠ []) : n ∈ domain s := by
  by_contra hn
  exact h (children_of_not_mem s n hn)

theorem children_eq_filterMap (s : Forest) (n : Nat) :
    children s n = (getNode s n).child_links.filterMap (fun lid => (getLink s lid).right) := by
  simp [children, List.filterMap_map, Function.comp_def]

theorem mem_children_iff (s : Forest) (n c : Nat) :
    c ∈ children s n ↔ ∃ lid ∈ (getNode s n).child_links, (getLink s lid).right = some c := by
  rw [children_eq_filterMap]
  simp [List.mem_filterMap]

/-! ### The heap-consistency invariant

`MutualLink` objects realise the bidirectional parent/child relationship:
the invariant states that every link referenced from a node is registered at
both of its endpoints, that no heap id dangles, and that freshly drawn link
ids are genuinely fresh. -/

structure Inv (s : Forest) : Prop where
  nodesNodup : (domain s).Nodup
  linksNodup : (linkDom s).Nodup
  linksFresh : ∀ l ∈ linkDom s, l < s.nextLink
  parentLinkOK : ∀ n ∈ domain s, ∀ lid ∈ (getNode s n).parent_link.toList,
      (getLink s lid).right = some n ∧
      ∃ p ∈ domain s, (getLink s lid).left = some p ∧ lid ∈ (getNode s p).child_links
  childNodup : ∀ n ∈ domain s, (getNode s n).child_links.Nodup
  childLinkOK : ∀ n ∈ domain s, ∀ lid ∈ (getNode s n).child_links,
      lid ∈ linkDom s ∧ (getLink s lid).left = some n ∧
      ∃ c ∈ domain s, (getLink s lid).right = some c ∧ (getNode s c).parent_link = some lid

/-- Unpacking `parent s n = some p` on a consistent heap: the connecting
link is fully mutual. -/
theorem Inv.parentBundle {s : Forest} (h : Inv s) {n p : Nat}
    (hp : parent s n = some p) :
    ∃ lid, (getNode s n).parent_link = some lid ∧
      (getLink s lid).left = some p ∧ (getLink s lid).right = some n ∧
      p ∈ domain s ∧ lid ∈ (getNode s p).child_links ∧ lid ∈ linkDom s := by
  have hn : n ∈ domain s := mem_domain_of_parent s n hp
  unfold parent at hp
  cases hlink : (getNode s n).parent_link with
  | none => rw [hlink] at hp; exact Option.noConfusion hp
  | some lid =>
    rw [hlink] at hp
    simp only at hp
    obtain ⟨hright, p', hp', hleft, hmem⟩ := h.parentLinkOK n hn lid (by simp [hlink])
    have hpp : p' = p := by rw [hleft] at hp; exact Option.some_injective _ hp
    subst hpp
    obtain ⟨hld, -⟩ := h.childLinkOK p' hp' lid hmem
    exact ⟨lid, rfl, hleft, hright, hp', hmem, hld⟩

/-- On a consistent heap, membership of `c` in `children s n` pins down the
link: it is `c`'s own parent link. -/
theorem Inv.childBundle {s : Forest} (h : Inv s) {n c : Nat}
    (hn : n ∈ domain s) (hc : c ∈ children s n) :
    ∃ lid, lid ∈ (getNode s n).child_links ∧ (getLink s lid).right = some c ∧
      (getLink s lid).left = some n ∧ c ∈ domain s ∧
      (getNode s c).parent_link = some lid := by
  obtain ⟨lid, hmem, hright⟩ := (mem_children_iff s n c).mp hc
  obtain ⟨-, hleft, c', hc', hright', hpar⟩ := h.childLinkOK n hn lid hmem
  have : c' = c := by rw [hright'] at hright; exact Option.some_injective _ hright
  subst this
  exact ⟨lid, hmem, hright', hleft, hc', hpar⟩

/-- On a consistent heap `c ∈ children s n` forces `parent s c = some n`. -/
theorem Inv.parent_of_mem_children {s : Forest} (h : Inv s) {n c : Nat}
    (hn : n ∈ domain s) (hc : c ∈ children s n) : parent s c = some n := by
  obtain ⟨lid, -, -, hleft, -, hpar⟩ := h.childBundle hn hc
  simp [parent, hpar, hleft]

/-- On a consistent heap a node without a parent occurs in nobody's child
list. -/
theorem Inv.not_mem_children_of_parent_none {s : Forest} (h : Inv s) {n c : Nat}
    (hn : n ∈ domain s) (hpar : (getNode s c).parent_link = none) :
    c ∉ children s n := by
  intro hc
  obtain ⟨lid, -, -, -, -, hp⟩ := h.childBundle hn hc
  rw [hpar] at hp
  exact Option.noConfusion hp

theorem lookupA_snoc_ne {α : Type} (m : List (Nat × α)) (k k' : Nat) (v : α)
    (h : k' ≠ k) : lookupA (m ++ [(k, v)]) k' = lookupA m k' := by
  cases hm : lookupA m k' with
  | some w => exact lookupA_append_of_some _ hm
  | none => rw [lookupA_append_of_none _ hm, lookupA_cons, if_neg (Ne.symm h), lookupA_nil]

theorem lookupA_snoc_self {α : Type} (m : List (Nat × α)) (k : Nat) (v : α)
    (h : lookupA m k = none) : lookupA (m ++ [(k, v)]) k = some v := by
  rw [lookupA_append_of_none _ h, lookupA_cons, if_pos rfl]

/-! ### Unfolding `__detach` and `__attach` on a consistent heap -/

theorem detach_eq (s : Forest) (b lid p : Nat)
    (hlid : (getNode s b).parent_link = some lid)
    (hleft : (getLink s lid).left = some p)
    (hmem : lid ∈ (getNode s p).child_links) :
    detach s b =
      (logEvent (updNode (updNode (logEvent s (.preDetach b p)) p
          (fun d => { d with child_links := d.child_links.erase lid })) b
          (fun d => { d with parent_link := none })) (.postDetach b p), none) := by
  unfold detach
  rw [hlid]
  simp only [hleft]
  rw [if_pos (show lid ∈ (getNode (logEvent s (Event.preDetach b p)) p).child_links from hmem)]

theorem attach_eq (s : Forest) (b p : Nat) (hnot : b ∉ children s p) :
    attach s b p =
      (logEvent (updNode (updNode
          { logEvent s (.preAttach b p) with
              links := s.links ++ [(s.nextLink, ⟨some p, some b⟩)],
              nextLink := s.nextLink + 1 } b
          (fun d => { d with parent_link := some s.nextLink })) p
          (fun d => { d with child_links := d.child_links ++ [s.nextLink] }))
        (.postAttach b p), none) := by
  unfold attach
  rw [if_neg]
  · rfl
  · simpa using hnot

/-- Complete description of a successful `__detach` from a consistent heap. -/
theorem detach_some_spec {s : Forest} (h : Inv s) {b p : Nat}
    (hp : parent s b = some p) :
    ∃ lid, (getNode s b).parent_link = some lid ∧ (getLink s lid).right = some b ∧
      (getLink s lid).left = some p ∧ p ∈ domain s ∧ lid ∈ (getNode s p).child_links ∧
      lid ∈ linkDom s ∧
      (detach s b).snd = none ∧
      (detach s b).fst.links = s.links ∧
      (detach s b).fst.nextLink = s.nextLink ∧
      domain (detach s b).fst = domain s ∧
      getNode (detach s b).fst b =
        { getNode s b with
            parent_link := none,
            child_links := if b = p then (getNode s b).child_links.erase lid
                           else (getNode s b).child_links } ∧
      (b ≠ p → getNode (detach s b).fst p =
        { getNode s p with child_links := (getNode s p).child_links.erase lid }) ∧
      (∀ m, m ≠ b → m ≠ p → getNode (detach s b).fst m = getNode s m) ∧
      (detach s b).fst.log = s.log ++ [Event.preDetach b p, Event.postDetach b p] := by
  obtain ⟨lid, hlid, hleft, hright, hpd, hmem, hld⟩ := h.parentBundle hp
  have hb : b ∈ domain s := mem_domain_of_parent s b hp
  have hd := detach_eq s b lid p hlid hleft hmem
  have hfst : (detach s b).fst =
      logEvent (updNode (updNode (logEvent s (.preDetach b p)) p
        (fun d => { d with child_links := d.child_links.erase lid })) b
        (fun d => { d with parent_link := none })) (.postDetach b p) := by rw [hd]
  have hsnd : (detach s b).snd = none := by rw [hd]
  have hbd2 : b ∈ domain (updNode (logEvent s (Event.preDetach b p)) p
      (fun d => { d with child_links := d.child_links.erase lid })) := by
    rw [domain_updNode]; exact hb
  have hpd1 : p ∈ domain (logEvent s (Event.preDetach b p)) := hpd
  refine ⟨lid, hlid, hright, hleft, hpd, hmem, hld, hsnd, by rw [hfst]; rfl, by rw [hfst]; rfl,
    by rw [hfst, domain_logEvent, domain_updNode, domain_updNode, domain_logEvent],
    ?_, ?_, ?_, ?_⟩
  · rw [hfst, getNode_logEvent, getNode_updNode_self _ _ _ hbd2]
    by_cases hbp : b = p
    · subst hbp
      rw [getNode_updNode_self (logEvent s (Event.preDetach b b)) b _ hb, getNode_logEvent]
      simp
    · rw [getNode_updNode_ne _ _ _ _ hbp, getNode_logEvent]
      simp [hbp]
  · intro hbp
    rw [hfst, getNode_logEvent, getNode_updNode_ne _ _ _ _ (Ne.symm hbp),
        getNode_updNode_self _ _ _ hpd1, getNode_logEvent]
  · intro m hmb hmp
    rw [hfst, getNode_logEvent, getNode_updNode_ne _ _ _ _ hmb,
        getNode_updNode_ne _ _ _ _ hmp, getNode_logEvent]
  · rw [hfst]
    simp [logEvent, updNode]

/-- Complete description of a successful `__attach` on a consistent heap. -/
theorem attach_spec {s : Forest} (h : Inv s) {b p : Nat}
    (hb : b ∈ domain s) (hp : p ∈ domain s)
    (hnone : (getNode s b).parent_link = none) :
    (attach s b p).snd = none ∧
    (attach s b p).fst.links = s.links ++ [(s.nextLink, ⟨some p, some b⟩)] ∧
    (attach s b p).fst.nextLink = s.nextLink + 1 ∧
    domain (attach s b p).fst = domain s ∧
    getNode (attach s b p).fst b =
      { getNode s b with
          parent_link := some s.nextLink,
          child_links := if b = p then (getNode s b).child_links ++ [s.nextLink]
                         else (getNode s b).child_links } ∧
    (b ≠ p → getNode (attach s b p).fst p =
      { getNode s p with child_links := (getNode s p).child_links ++ [s.nextLink] }) ∧
    (∀ m, m ≠ b → m ≠ p → getNode (attach s b p).fst m = getNode s m) ∧
    (attach s b p).fst.log = s.log ++ [Event.preAttach b p, Event.postAttach b p] := by
  have hnot : b ∉ children s p := h.not_mem_children_of_parent_none hp hnone
  have ha := attach_eq s b p hnot
  have hfst : (attach s b p).fst =
      logEvent (updNode (updNode
          { logEvent s (.preAttach b p) with
              links := s.links ++ [(s.nextLink, ⟨some p, some b⟩)],
              nextLink := s.nextLink + 1 } b
          (fun d => { d with parent_link := some s.nextLink })) p
          (fun d => { d with child_links := d.child_links ++ [s.nextLink] }))
        (.postAttach b p) := by rw [ha]
  have hsnd : (attach s b p).snd = none := by rw [ha]
  have hmid : getNode ({ logEvent s (.preAttach b p) with
      links := s.links ++ [(s.nextLink, ⟨some p, some b⟩)],
      nextLink := s.nextLink + 1 } : Forest) = getNode s := rfl
  have hmdom : domain ({ logEvent s (.preAttach b p) with
      links := s.links ++ [(s.nextLink, ⟨some p, some b⟩)],
      nextLink := s.nextLink + 1 } : Forest) = domain s := rfl
  have hbd : b ∈ domain ({ logEvent s (.preAttach b p) with
      links := s.links ++ [(s.nextLink, ⟨some p, some b⟩)],
      nextLink := s.nextLink + 1 } : Forest) := hb
  have hpd2 : p ∈ domain (updNode ({ logEvent s (.preAttach b p) with
      links := s.links ++ [(s.nextLink, ⟨some p, some b⟩)],
      nextLink := s.nextLink + 1 } : Forest) b
      (fun d => { d with parent_link := some s.nextLink })) := by
    rw [domain_updNode]; exact hp
  refine ⟨hsnd, by rw [hfst]; rfl, by rw [hfst]; rfl,
    by rw [hfst, domain_logEvent, domain_updNode, domain_updNode, hmdom], ?_, ?_, ?_, ?_⟩
  · rw [hfst, getNode_logEvent]
    by_cases hbp : b = p
    · subst hbp
      rw [getNode_updNode_self _ _ _ hpd2, getNode_updNode_self _ _ _ hbd, hmid]
      simp
    · rw [getNode_updNode_ne _ _ _ _ hbp, getNode_updNode_self _ _ _ hbd, hmid]
      simp [hbp]
  · intro hbp
    rw [hfst, getNode_logEvent, getNode_updNode_self _ _ _ hpd2,
        getNode_updNode_ne _ _ _ _ (Ne.symm hbp), hmid]
  · intro m hmb hmp
    rw [hfst, getNode_logEvent, getNode_updNode_ne _ _ _ _ hmp,
        getNode_updNode_ne _ _ _ _ hmb, hmid]
  · rw [hfst]
    simp [logEvent, updNode]

/-- Link lookup after `__attach`: existing links are untouched. -/
theorem attach_getLink_ne {s : Forest} (h : Inv s) {b p : Nat}
    (hb : b ∈ domain s) (hp : p ∈ domain s)
    (hnone : (getNode s b).parent_link = none) (l : Nat) (hl : l ≠ s.nextLink) :
    getLink (attach s b p).fst l = getLink s l := by
  obtain ⟨-, hlinks, -⟩ := attach_spec h hb hp hnone
  simp only [getLink, hlinks, lookupA_snoc_ne _ _ _ _ hl]

/-- Link lookup after `__attach`: the fresh link holds both endpoints. -/
theorem attach_getLink_new {s : Forest} (h : Inv s) {b p : Nat}
    (hb : b ∈ domain s) (hp : p ∈ domain s)
    (hnone : (getNode s b).parent_link = none) :
    getLink (attach s b p).fst s.nextLink = ⟨some p, some b⟩ := by
  obtain ⟨-, hlinks, -⟩ := attach_spec h hb hp hnone
  have hfresh : lookupA s.links s.nextLink = none := by
    rw [lookupA_eq_none_iff]
    intro hmem
    exact absurd (h.linksFresh _ hmem) (lt_irrefl _)
  simp only [getLink, hlinks, lookupA_snoc_self _ _ _ hfresh, Option.getD_some]

/-- Link lookup after `__detach` is unchanged. -/
theorem detach_getLink {s : Forest} (h : Inv s) {b p : Nat}
    (hp : parent s b = some p) (l : Nat) :
    getLink (detach s b).fst l = getLink s l := by
  obtain ⟨lid, -, -, -, -, -, -, -, hlinks, -⟩ := detach_some_spec h hp
  simp only [getLink, hlinks]

/-! ### Preservation of the invariant by `__detach` and `__attach` -/

theorem Inv_detach {s : Forest} (h : Inv s) {b : Nat} (hb : b ∈ domain s) :
    Inv (detach s b).fst := by
  cases hpl : (getNode s b).parent_link with
  | none =>
    have hd : detach s b = (s, none) := by unfold detach; rw [hpl]
    rw [hd]
    exact h
  | some lid9 =>
    obtain ⟨hright9, p, hpd9, hleft9, hmem9⟩ := h.parentLinkOK b hb lid9 (by simp [hpl])
    have hp : parent s b = some p := by simp [parent, hpl, hleft9]
    obtain ⟨lid, hlid, hr', hl', hpd, hmem, hld, hsnd, hlinks, hnext, hdom,
      hgb, hgp, hgo, hlog⟩ := detach_some_spec h hp
    set s' := (detach s b).fst with hs'
    have hglE : ∀ l, getLink s' l = getLink s l := fun l => by
      simp only [getLink, hlinks]
    have hparB : (getNode s' b).parent_link = none := by rw [hgb]
    have hparEq : ∀ m, m ≠ b → (getNode s' m).parent_link = (getNode s m).parent_link := by
      intro m hmb
      by_cases hmp : m = p
      · subst hmp
        rw [hgp (Ne.symm hmb)]
      · rw [hgo m hmb hmp]
    have hchlP : (getNode s' p).child_links = (getNode s p).child_links.erase lid := by
      by_cases hbp : b = p
      · subst hbp
        rw [hgb]
        simp
      · rw [hgp hbp]
    have hchlO : ∀ q, q ≠ p → (getNode s' q).child_links = (getNode s q).child_links := by
      intro q hqp
      by_cases hqb : q = b
      · subst hqb
        rw [hgb]
        simp [hqp]
      · rw [hgo q hqb hqp]
    have hchlCase : ∀ q, (getNode s' q).child_links = (getNode s q).child_links ∨
        (getNode s' q).child_links = (getNode s q).child_links.erase lid := by
      intro q
      by_cases hqp : q = p
      · exact Or.inr (hqp ▸ hchlP)
      · exact Or.inl (hchlO q hqp)
    -- a link surviving in any child list differs from the removed link
    have hne_lid : ∀ q, q ∈ domain s → ∀ l2 ∈ (getNode s' q).child_links, l2 ≠ lid := by
      intro q hq l2 hl2 he
      subst he
      rcases hchlCase q with hcq | hcq
      · rw [hcq] at hl2
        obtain ⟨-, hleft2, -⟩ := h.childLinkOK q hq l2 hl2
        have hqp : q = p := by
          rw [hleft2] at hl'
          exact Option.some_injective _ hl'
        subst hqp
        rw [← hcq, hchlP] at hl2
        exact (h.childNodup q hq).not_mem_erase hl2
      · rw [hcq] at hl2
        have hq' : q ∈ domain s := hq
        exact (h.childNodup q hq').not_mem_erase hl2
    have hchlSub : ∀ q, ∀ l2 ∈ (getNode s' q).child_links, l2 ∈ (getNode s q).child_links := by
      intro q l2 hl2
      rcases hchlCase q with hcq | hcq
      · rwa [hcq] at hl2
      · rw [hcq] at hl2
        exact List.mem_of_mem_erase hl2
    refine ⟨?_, ?_, ?_, ?_, ?_, ?_⟩
    · rw [hdom]; exact h.nodesNodup
    · have hld2 : linkDom s' = linkDom s := by simp [linkDom, hlinks]
      rw [hld2]; exact h.linksNodup
    · intro l hl
      have hl2 : l ∈ linkDom s := by simpa [linkDom, hlinks] using hl
      rw [hnext]
      exact h.linksFresh l hl2
    · intro n hn lid2 hlid2
      have hn' : n ∈ domain s := hdom ▸ hn
      by_cases hnb : n = b
      · subst hnb
        rw [hparB] at hlid2
        simp at hlid2
      · rw [hparEq n hnb] at hlid2
        obtain ⟨hr2, q, hq, hl2, hm2⟩ := h.parentLinkOK n hn' lid2 hlid2
        have hlid2ne : lid2 ≠ lid := by
          intro he
          subst he
          rw [hr'] at hr2
          exact hnb (Option.some_injective _ hr2).symm
        refine ⟨by rw [hglE]; exact hr2, q, hdom ▸ hq, by rw [hglE]; exact hl2, ?_⟩
        rcases hchlCase q with hcq | hcq
        · rw [hcq]; exact hm2
        · rw [hcq]; exact (List.mem_erase_of_ne hlid2ne).mpr hm2
    · intro n hn
      have hn' : n ∈ domain s := hdom ▸ hn
      rcases hchlCase n with hcq | hcq
      · rw [hcq]; exact h.childNodup n hn'
      · rw [hcq]; exact (h.childNodup n hn').erase lid
    · intro n hn lid2 hlid2
      have hn' : n ∈ domain s := hdom ▸ hn
      have hl2old : lid2 ∈ (getNode s n).child_links := hchlSub n lid2 hlid2
      have hlid2ne : lid2 ≠ lid := hne_lid n hn' lid2 hlid2
      obtain ⟨hlD, hlf, c, hc, hr2, hpar2⟩ := h.childLinkOK n hn' lid2 hl2old
      have hcb : c ≠ b := by
        intro he
        subst he
        rw [hlid] at hpar2
        exact hlid2ne (Option.some_injective _ hpar2).symm
      refine ⟨by simpa [linkDom, hlinks] using hlD, by rw [hglE]; exact hlf,
        c, hdom ▸ hc, by rw [hglE]; exact hr2, ?_⟩
      rw [hparEq c hcb]
      exact hpar2

theorem Inv_attach {s : Forest} (h : Inv s) {b p : Nat}
    (hb : b ∈ domain s) (hp : p ∈ domain s)
    (hnone : (getNode s b).parent_link = none) :
    Inv (attach s b p).fst := by
  obtain ⟨hsnd, hlinks, hnext, hdom, hgb, hgp, hgo, hlog⟩ := attach_spec h hb hp hnone
  set s' := (attach s b p).fst with hs'
  have hglO : ∀ l, l ≠ s.nextLink → getLink s' l = getLink s l :=
    fun l hl => attach_getLink_ne h hb hp hnone l hl
  have hglN : getLink s' s.nextLink = ⟨some p, some b⟩ := attach_getLink_new h hb hp hnone
  have hldE : linkDom s' = linkDom s ++ [s.nextLink] := by simp [linkDom, hlinks]
  have hparB : (getNode s' b).parent_link = some s.nextLink := by rw [hgb]
  have hparEq : ∀ m, m ≠ b → (getNode s' m).parent_link = (getNode s m).parent_link := by
    intro m hmb
    by_cases hmp : m = p
    · subst hmp
      rw [hgp (Ne.symm hmb)]
    · rw [hgo m hmb hmp]
  have hchlP : (getNode s' p).child_links = (getNode s p).child_links ++ [s.nextLink] := by
    by_cases hbp : b = p
    · subst hbp
      rw [hgb]
      simp
    · rw [hgp hbp]
  have hchlO : ∀ q, q ≠ p → (getNode s' q).child_links = (getNode s q).child_links := by
    intro q hqp
    by_cases hqb : q = b
    · subst hqb
      rw [hgb]
      simp [hqp]
    · rw [hgo q hqb hqp]
  have hchl_lt : ∀ q, q ∈ domain s → ∀ l2 ∈ (getNode s q).child_links, l2 < s.nextLink :=
    fun q hq l2 hl2 => h.linksFresh l2 (h.childLinkOK q hq l2 hl2).1
  refine ⟨?_, ?_, ?_, ?_, ?_, ?_⟩
  · rw [hdom]; exact h.nodesNodup
  · rw [hldE]
    rw [List.nodup_append]
    refine ⟨h.linksNodup, List.nodup_singleton _, ?_⟩
    intro l hl
    simp only [List.mem_singleton]
    exact fun he => absurd (he ▸ h.linksFresh l hl) (lt_irrefl _)
  · intro l hl
    rw [hnext]
    rw [hldE] at hl
    rcases List.mem_append.mp hl with h1 | h1
    · exact Nat.lt_trans (h.linksFresh l h1) (Nat.lt_succ_self _)
    · rw [List.mem_singleton] at h1
      exact h1 ▸ Nat.lt_succ_self _
  · intro n hn lid2 hlid2
    by_cases hnb : n = b
    · subst hnb
      rw [hparB] at hlid2
      simp only [Option.toList_some, List.mem_singleton] at hlid2
      subst hlid2
      refine ⟨by rw [hglN], p, hdom ▸ hp, by rw [hglN], ?_⟩
      rw [hchlP]
      exact List.mem_append_right _ (List.mem_singleton_self _)
    · rw [hparEq n hnb] at hlid2
      have hn' : n ∈ domain s := hdom ▸ hn
      obtain ⟨hr2, q, hq, hl2, hm2⟩ := h.parentLinkOK n hn' lid2 hlid2
      have hne : lid2 ≠ s.nextLink := Nat.ne_of_lt (hchl_lt q hq lid2 hm2)
      refine ⟨by rw [hglO lid2 hne]; exact hr2, q, hdom ▸ hq,
        by rw [hglO lid2 hne]; exact hl2, ?_⟩
      by_cases hqp : q = p
      · subst hqp
        rw [hchlP]
        exact List.mem_append_left _ hm2
      · rw [hchlO q hqp]
        exact hm2
  · intro n hn
    have hn' : n ∈ domain s := hdom ▸ hn
    by_cases hnp : n = p
    · subst hnp
      rw [hchlP, List.nodup_append]
      refine ⟨h.childNodup n hn', List.nodup_singleton _, ?_⟩
      intro l hl
      simp only [List.mem_singleton]
      exact Nat.ne_of_lt (hchl_lt n hn' l hl)
    · rw [hchlO n hnp]
      exact h.childNodup n hn'
  · intro n hn lid2 hlid2
    have hn' : n ∈ domain s := hdom ▸ hn
    have hsplit : lid2 ∈ (getNode s n).child_links ∨ (n = p ∧ lid2 = s.nextLink) := by
      by_cases hnp : n = p
      · subst hnp
        rw [hchlP] at hlid2
        rcases List.mem_append.mp hlid2 with h1 | h1
        · exact Or.inl h1
        · exact Or.inr ⟨rfl, List.mem_singleton.mp h1⟩
      · rw [hchlO n hnp] at hlid2
        exact Or.inl hlid2
    rcases hsplit with hold | ⟨hnp, hnew⟩
    · obtain ⟨hlD, hlf, c, hc, hr2, hpar2⟩ := h.childLinkOK n hn' lid2 hold
      have hne : lid2 ≠ s.nextLink := Nat.ne_of_lt (h.linksFresh _ hlD)
      have hcb : c ≠ b := by
        intro he
        subst he
        rw [hnone] at hpar2
        exact Option.noConfusion hpar2
      refine ⟨by rw [hldE]; exact List.mem_append_left _ hlD,
        by rw [hglO lid2 hne]; exact hlf, c, hdom ▸ hc,
        by rw [hglO lid2 hne]; exact hr2, ?_⟩
      rw [hparEq c hcb]
      exact hpar2
    · subst hnp
      subst hnew
      refine ⟨by rw [hldE]; exact List.mem_append_right _ (List.mem_singleton_self _),
        by rw [hglN], b, hdom ▸ hb, by rw [hglN], hparB⟩

/-! ### Case equations for the `parent` setter -/

theorem setParent_of_checkLoop_some {s : Forest} {n : Nat} {pa : Option Nat} {e : Err}
    (h : checkLoop s n pa = some e) : setParent s n pa = (s, some e) := by
  unfold setParent
  rw [h]

theorem setParent_of_noop {s : Forest} {n p : Nat}
    (hc : checkLoop s n (some p) = none) (hp : parent s n = some p) :
    setParent s n (some p) = (s, none) := by
  unfold setParent
  rw [hc]
  simp only [if_pos hp]

theorem setParent_of_move {s : Forest} {n p : Nat}
    (hc : checkLoop s n (some p) = none) (hp : parent s n ≠ some p)
    (hd : (detach s n).snd = none) :
    setParent s n (some p) = attach (detach s n).fst n p := by
  unfold setParent
  rw [hc]
  simp only [if_neg hp]
  have hdd : detach s n = ((detach s n).fst, none) := by
    rw [← hd]
  rw [hdd]

theorem setParent_of_move_err {s : Forest} {n p : Nat} {e : Err}
    (hc : checkLoop s n (some p) = none) (hp : parent s n ≠ some p)
    (hd : (detach s n).snd = some e) :
    setParent s n (some p) = ((detach s n).fst, some e) := by
  unfold setParent
  rw [hc]
  simp only [if_neg hp]
  have hdd : detach s n = ((detach s n).fst, some e) := by
    rw [← hd]
  rw [hdd]

/-- On a consistent heap `__detach` never hits its corruption assert nor the
`ValueError` of `list.remove`. -/
theorem detach_ok {s : Forest} (h : Inv s) {n : Nat} (hn : n ∈ domain s) :
    (detach s n).snd = none := by
  cases hpl : (getNode s n).parent_link with
  | none =>
    have hd : detach s n = (s, none) := by unfold detach; rw [hpl]
    rw [hd]
  | some lid =>
    obtain ⟨hr, p, hpd, hl, hm⟩ := h.parentLinkOK n hn lid (by simp [hpl])
    have hp : parent s n = some p := by simp [parent, hpl, hl]
    obtain ⟨lid2, -, -, -, -, -, -, hsnd, -⟩ := detach_some_spec h hp
    exact hsnd

/-- After a successful `__detach`, the node's parent link is cleared. -/
theorem detach_parent_link_none {s : Forest} (h : Inv s) {n : Nat} (hn : n ∈ domain s) :
    (getNode (detach s n).fst n).parent_link = none := by
  cases hpl : (getNode s n).parent_link with
  | none =>
    have hd : detach s n = (s, none) := by unfold detach; rw [hpl]
    rw [hd, hpl]
  | some lid =>
    obtain ⟨hr, p, hpd, hl, hm⟩ := h.parentLinkOK n hn lid (by simp [hpl])
    have hp : parent s n = some p := by simp [parent, hpl, hl]
    obtain ⟨lid2, -, -, -, -, -, -, -, -, -, -, hgb, -⟩ := detach_some_spec h hp
    rw [hgb]

theorem detach_domain (s : Forest) (b : Nat) : domain (detach s b).fst = domain s := by
  unfold detach
  split
  · rfl
  · split
    · rfl
    · dsimp only
      split
      · simp only [domain_logEvent, domain_updNode]
      · rfl

theorem attach_domain (s : Forest) (b p : Nat) : domain (attach s b p).fst = domain s := by
  unfold attach
  split
  · rfl
  · simp only [domain_logEvent, domain_updNode]
    rfl

theorem setParent_domain (s : Forest) (n : Nat) (pa : Option Nat) :
    domain (setParent s n pa).fst = domain s := by
  unfold setParent
  cases hc : checkLoop s n pa with
  | some e => rfl
  | none =>
    cases pa with
    | none => rfl
    | some p =>
      by_cases hpp : parent s n = some p
      · simp only [if_pos hpp]
      · simp only [if_neg hpp]
        cases hd : detach s n with
        | mk s1 e =>
          have hs1 : s1 = (detach s n).fst := by rw [hd]
          cases e with
          | none =>
            rw [attach_domain, hs1, detach_domain]
          | some e =>
            simp only [hs1, detach_domain]

theorem Inv_setParent {s : Forest} (h : Inv s) {n : Nat} {pa : Option Nat}
    (hn : n ∈ domain s) (hpa : ∀ q, pa = some q → q ∈ domain s) :
    Inv (setParent s n pa).fst := by
  cases hc : checkLoop s n pa with
  | some e =>
    rw [setParent_of_checkLoop_some hc]
    exact h
  | none =>
    cases pa with
    | none => simp [checkLoop] at hc
    | some p =>
      have hpd : p ∈ domain s := hpa p rfl
      by_cases hpp : parent s n = some p
      · rw [setParent_of_noop hc hpp]
        exact h
      · rw [setParent_of_move hc hpp (detach_ok h hn)]
        exact Inv_attach (Inv_detach h hn) (by rw [detach_domain]; exact hn)
          (by rw [detach_domain]; exact hpd) (detach_parent_link_none h hn)

theorem delParent_domain (s : Forest) (n : Nat) :
    domain (delParent s n).fst = domain s := by
  unfold delParent
  cases parent s n with
  | none => rfl
  | some p => exact detach_domain s n

theorem Inv_delParent {s : Forest} (h : Inv s) {n : Nat} (hn : n ∈ domain s) :
    Inv (delParent s n).fst := by
  unfold delParent
  cases parent s n with
  | none => exact h
  | some p => exact Inv_detach h hn

theorem Inv_logEvent {s : Forest} (h : Inv s) (e : Event) : Inv (logEvent s e) :=
  ⟨h.nodesNodup, h.linksNodup, h.linksFresh, h.parentLinkOK, h.childNodup, h.childLinkOK⟩

theorem setChildrenLoop_domain (n : Nat) (cs : List Nat) :
    ∀ s : Forest, domain (setChildrenLoop n s cs).fst = domain s := by
  induction cs with
  | nil => intro s; rfl
  | cons c rest ih =>
    intro s
    unfold setChildrenLoop
    cases hsp : setParent s c (some n) with
    | mk s1 e =>
      have hs1 : s1 = (setParent s c (some n)).fst := by rw [hsp]
      cases e with
      | some e => simp only [hs1, setParent_domain]
      | none => rw [ih s1, hs1, setParent_domain]

theorem setChildrenLoop_inv (n : Nat) (cs : List Nat) :
    ∀ s : Forest, Inv s → n ∈ domain s → (∀ c ∈ cs, c ∈ domain s) →
    Inv (setChildrenLoop n s cs).fst := by
  induction cs with
  | nil => intro s h _ _; exact h
  | cons c rest ih =>
    intro s h hn hcs
    unfold setChildrenLoop
    cases hsp : setParent s c (some n) with
    | mk s1 e =>
      have hs1 : s1 = (setParent s c (some n)).fst := by rw [hsp]
      have hInv1 : Inv s1 := by
        rw [hs1]
        exact Inv_setParent h (hcs c (List.mem_cons_self c rest))
          (fun q hq => by cases hq; exact hn)
      have hdom1 : domain s1 = domain s := by rw [hs1, setParent_domain]
      cases e with
      | some e => exact hInv1
      | none =>
        exact ih s1 hInv1 (hdom1 ▸ hn)
          (fun c' hc' => hdom1 ▸ hcs c' (List.mem_cons_of_mem c hc'))

theorem setChildren_domain (s : Forest) (n : Nat) (cs : List Nat) :
    domain (setChildren s n cs).fst = domain s := by
  unfold setChildren
  split
  · rfl
  · split
    · rfl
    · dsimp only
      cases hsl : setChildrenLoop n (logEvent s (.preAttachChildren n cs)) cs with
      | mk s2 e =>
        have hs2 : s2 = (setChildrenLoop n (logEvent s (.preAttachChildren n cs)) cs).fst := by
          rw [hsl]
        have hd : domain s2 = domain s := by
          rw [hs2, setChildrenLoop_domain]
          rfl
        cases e with
        | some e => exact hd
        | none =>
          dsimp only
          split
          · exact hd
          · exact hd

theorem Inv_setChildren {s : Forest} (h : Inv s) {n : Nat} {cs : List Nat}
    (hn : n ∈ domain s) (hcs : ∀ c ∈ cs, c ∈ domain s) :
    Inv (setChildren s n cs).fst := by
  unfold setChildren
  split
  · exact h
  · split
    · exact h
    · have h1 : Inv (logEvent s (.preAttachChildren n cs)) := Inv_logEvent h _
      dsimp only
      cases hsl : setChildrenLoop n (logEvent s (.preAttachChildren n cs)) cs with
      | mk s2 e =>
        have hs2 : s2 = (setChildrenLoop n (logEvent s (.preAttachChildren n cs)) cs).fst := by
          rw [hsl]
        have hI : Inv s2 := by
          rw [hs2]
          exact setChildrenLoop_inv n cs _ h1 hn hcs
        cases e with
        | some e => exact hI
        | none =>
          dsimp only
          split
          · exact Inv_logEvent hI _
          · exact Inv_logEvent hI _

theorem delChildrenLoop_domain (cs : List Nat) :
    ∀ s : Forest, domain (delChildrenLoop s cs).fst = domain s := by
  induction cs with
  | nil => intro s; rfl
  | cons c rest ih =>
    intro s
    unfold delChildrenLoop
    cases hdp : delParent s c with
    | mk s1 e =>
      have hs1 : s1 = (delParent s c).fst := by rw [hdp]
      cases e with
      | some e => simp only [hs1, delParent_domain]
      | none => rw [ih s1, hs1, delParent_domain]

theorem delChildrenLoop_inv (cs : List Nat) :
    ∀ s : Forest, Inv s → (∀ c ∈ cs, c ∈ domain s) →
    Inv (delChildrenLoop s cs).fst := by
  induction cs with
  | nil => intro s h _; exact h
  | cons c rest ih =>
    intro s h hcs
    unfold delChildrenLoop
    cases hdp : delParent s c with
    | mk s1 e =>
      have hs1 : s1 = (delParent s c).fst := by rw [hdp]
      have hInv1 : Inv s1 := by
        rw [hs1]
        exact Inv_delParent h (hcs c (List.mem_cons_self c rest))
      have hdom1 : domain s1 = domain s := by rw [hs1, delParent_domain]
      cases e with
      | some e => exact hInv1
      | none =>
        exact ih s1 hInv1 (fun c' hc' => hdom1 ▸ hcs c' (List.mem_cons_of_mem c hc'))

/-- On a consistent heap every child reference points at a heap node. -/
theorem children_subset_domain {s : Forest} (h : Inv s) {n : Nat} (hn : n ∈ domain s) :
    ∀ c ∈ children s n, c ∈ domain s := by
  intro c hc
  obtain ⟨lid, -, -, -, hcd, -⟩ := h.childBundle hn hc
  exact hcd

theorem delChildren_domain (s : Forest) (n : Nat) :
    domain (delChildren s n).fst = domain s := by
  unfold delChildren
  dsimp only
  cases hdl : delChildrenLoop (logEvent s (.preDetachChildren n (children s n)))
      (children (logEvent s (.preDetachChildren n (children s n))) n) with
  | mk s2 e =>
    have hs2 : s2 = (delChildrenLoop (logEvent s (.preDetachChildren n (children s n)))
        (children (logEvent s (.preDetachChildren n (children s n))) n)).fst := by rw [hdl]
    have hd : domain s2 = domain s := by
      rw [hs2, delChildrenLoop_domain]
      rfl
    cases e with
    | some e => exact hd
    | none => exact hd

theorem Inv_delChildren {s : Forest} (h : Inv s) {n : Nat} (hn : n ∈ domain s) :
    Inv (delChildren s n).fst := by
  unfold delChildren
  have h1 : Inv (logEvent s (.preDetachChildren n (children s n))) := Inv_logEvent h _
  dsimp only
  cases hdl : delChildrenLoop (logEvent s (.preDetachChildren n (children s n)))
      (children (logEvent s (.preDetachChildren n (children s n))) n) with
  | mk s2 e =>
    have hs2 : s2 = (delChildrenLoop (logEvent s (.preDetachChildren n (children s n)))
        (children (logEvent s (.preDetachChildren n (children s n))) n)).fst := by rw [hdl]
    have hI : Inv s2 := by
      rw [hs2]
      exact delChildrenLoop_inv _ _ h1 (children_subset_domain h hn)
    cases e with
    | some e => exact hI
    | none => exact Inv_logEvent hI _

/-! ### Construction -/

theorem getNode_extend_old {s : Forest} {m : Nat} (hm : m ∈ domain s) (n v : Nat) :
    getNode { s with nodes := s.nodes ++ [(n, ⟨v, none, []⟩)] } m = getNode s m := by
  rw [mem_domain_iff] at hm
  obtain ⟨d, hd⟩ := Option.isSome_iff_exists.mp hm
  simp only [getNode, lookupA_append_of_some _ hd, hd]

theorem getNode_extend_new {s : Forest} {n : Nat} (hn : n ∉ domain s) (v : Nat) :
    getNode { s with nodes := s.nodes ++ [(n, ⟨v, none, []⟩)] } n = ⟨v, none, []⟩ := by
  have hnone : lookupA s.nodes n = none := by
    rw [lookupA_eq_none_iff]
    simpa [domain] using hn
  simp only [getNode, lookupA_snoc_self _ _ _ hnone, Option.getD_some]

theorem domain_extend (s : Forest) (n v : Nat) :
    domain { s with nodes := s.nodes ++ [(n, ⟨v, none, []⟩)] } = domain s ++ [n] := by
  simp [domain]

theorem Inv_extend {s : Forest} (h : Inv s) {n : Nat} (hn : n ∉ domain s) (v : Nat) :
    Inv { s with nodes := s.nodes ++ [(n, ⟨v, none, []⟩)] } := by
  refine ⟨?_, h.linksNodup, h.linksFresh, ?_, ?_, ?_⟩
  · rw [domain_extend, List.nodup_append]
    refine ⟨h.nodesNodup, List.nodup_singleton _, ?_⟩
    intro m hm
    simp only [List.mem_singleton]
    intro he
    exact hn (he ▸ hm)
  · intro m hm lid hlid
    rw [domain_extend] at hm
    rcases List.mem_append.mp hm with hold | hnew
    · rw [getNode_extend_old hold] at hlid
      obtain ⟨hr, q, hq, hl, hmq⟩ := h.parentLinkOK m hold lid hlid
      refine ⟨hr, q, by rw [domain_extend]; exact List.mem_append_left _ hq, hl, ?_⟩
      rw [getNode_extend_old hq]
      exact hmq
    · rw [List.mem_singleton] at hnew
      subst hnew
      rw [getNode_extend_new hn] at hlid
      simp at hlid
  · intro m hm
    rw [domain_extend] at hm
    rcases List.mem_append.mp hm with hold | hnew
    · rw [getNode_extend_old hold]
      exact h.childNodup m hold
    · rw [List.mem_singleton] at hnew
      subst hnew
      rw [getNode_extend_new hn]
      exact List.nodup_nil
  · intro m hm lid hlid
    rw [domain_extend] at hm
    rcases List.mem_append.mp hm with hold | hnew
    · rw [getNode_extend_old hold] at hlid
      obtain ⟨hld, hl, c, hc, hr, hpar⟩ := h.childLinkOK m hold lid hlid
      refine ⟨hld, hl, c, by rw [domain_extend]; exact List.mem_append_left _ hc, hr, ?_⟩
      rw [getNode_extend_old hc]
      exact hpar
    · rw [List.mem_singleton] at hnew
      subst hnew
      rw [getNode_extend_new hn] at hlid
      simp at hlid

theorem Inv_newNode {s : Forest} (h : Inv s) {n v : Nat} {pa : Option Nat}
    {cs : Option (List Nat)} (hn : n ∉ domain s)
    (hpa : ∀ q, pa = some q → q ∈ domain s)
    (hcs : ∀ l, cs = some l → ∀ c ∈ l, c ∈ domain s) :
    Inv (newNode s n v pa cs).fst := by
  unfold newNode
  dsimp only
  have h0 : Inv { s with nodes := s.nodes ++ [(n, ⟨v, none, []⟩)] } := Inv_extend h hn v
  have hd0 : domain ({ s with nodes := s.nodes ++ [(n, ⟨v, none, []⟩)] } : Forest) =
      domain s ++ [n] := domain_extend s n v
  have hn0 : n ∈ domain ({ s with nodes := s.nodes ++ [(n, ⟨v, none, []⟩)] } : Forest) := by
    rw [hd0]
    exact List.mem_append_right _ (List.mem_singleton_self _)
  cases pa with
  | none =>
    cases cs with
    | none => exact h0
    | some l =>
      exact Inv_setChildren h0 hn0
        (fun c hc => by rw [hd0]; exact List.mem_append_left _ (hcs l rfl c hc))
  | some p =>
    dsimp only
    have hp0 : p ∈ domain ({ s with nodes := s.nodes ++ [(n, ⟨v, none, []⟩)] } : Forest) := by
      rw [hd0]
      exact List.mem_append_left _ (hpa p rfl)
    cases hsp : setParent { s with nodes := s.nodes ++ [(n, ⟨v, none, []⟩)] } n (some p) with
    | mk s1 e =>
      have hs1 : s1 = (setParent { s with nodes := s.nodes ++ [(n, ⟨v, none, []⟩)] } n
          (some p)).fst := by rw [hsp]
      have hI1 : Inv s1 := by
        rw [hs1]
        exact Inv_setParent h0 hn0 (fun q hq => by cases hq; exact hp0)
      have hd1 : domain s1 = domain s ++ [n] := by rw [hs1, setParent_domain, hd0]
      cases e with
      | some e => exact hI1
      | none =>
        cases cs with
        | none => exact hI1
        | some l =>
          have hnm : n ∈ domain s1 := by
            rw [hd1]
            exact List.mem_append_right _ (List.mem_singleton_self _)
          exact Inv_setChildren hI1 hnm
            (fun c hc => by rw [hd1]; exact List.mem_append_left _ (hcs l rfl c hc))

/-! ### Reachable heaps -/

/-- Heaps reachable through the public `TypedNode` interface: construction
plus the four `parent`/`children` accessor mutations, whether each call
returns normally or raises (the resulting heap is kept in either case).
Arguments are object references, so they must denote live nodes; a
constructed node gets a fresh id. -/
inductive Reachable : Forest → Prop
  | init : Reachable Forest.empty
  | newN (s : Forest) (n v : Nat) (pa : Option Nat) (cs : Option (List Nat)) :
      Reachable s → n ∉ domain s → (∀ q, pa = some q → q ∈ domain s) →
      (∀ l, cs = some l → ∀ c ∈ l, c ∈ domain s) →
      Reachable (newNode s n v pa cs).fst
  | setP (s : Forest) (n : Nat) (pa : Option Nat) :
      Reachable s → n ∈ domain s → (∀ q, pa = some q → q ∈ domain s) →
      Reachable (setParent s n pa).fst
  | delP (s : Forest) (n : Nat) :
      Reachable s → n ∈ domain s → Reachable (delParent s n).fst
  | setC (s : Forest) (n : Nat) (cs : List Nat) :
      Reachable s → n ∈ domain s → (∀ c ∈ cs, c ∈ domain s) →
      Reachable (setChildren s n cs).fst
  | delC (s : Forest) (n : Nat) :
      Reachable s → n ∈ domain s → Reachable (delChildren s n).fst

theorem Inv_empty : Inv Forest.empty := by
  refine ⟨?_, ?_, ?_, ?_, ?_, ?_⟩ <;> simp [domain, linkDom, Forest.empty]

/-- Every reachable heap is consistent. -/
theorem reachable_inv {s : Forest} (h : Reachable s) : Inv s := by
  induction h with
  | init => exact Inv_empty
  | newN s n v pa cs hr hn hpa hcs ih => exact Inv_newNode ih hn hpa hcs
  | setP s n pa hr hn hpa ih => exact Inv_setParent ih hn hpa
  | delP s n hr hn ih => exact Inv_delParent ih hn
  | setC s n cs hr hn hcs ih => exact Inv_setChildren ih hn hcs
  | delC s n hr hn ih => exact Inv_delChildren ih hn

/-! ### Equation lemmas for the parent walk and the setter checks -/

theorem iterPathReverse_succ_none {s : Forest} {n : Nat} (fuel : Nat)
    (h : parent s n = none) : iterPathReverse s (fuel + 1) n = [n] := by
  unfold iterPathReverse
  rw [h]

theorem iterPathReverse_succ_some {s : Forest} {n p : Nat} (fuel : Nat)
    (h : parent s n = some p) :
    iterPathReverse s (fuel + 1) n = n :: iterPathReverse s fuel p := by
  conv_lhs => rw [iterPathReverse]
  rw [h]

theorem iterPathReverse_length_pos (s : Forest) (fuel n : Nat) (h : 0 < fuel) :
    0 < (iterPathReverse s fuel n).length := by
  cases fuel with
  | zero => omega
  | succ f =>
    cases hp : parent s n with
    | none => rw [iterPathReverse_succ_none f hp]; simp
    | some p => rw [iterPathReverse_succ_some f hp]; simp

theorem ancestors_of_none {s : Forest} {n : Nat} (h : parent s n = none) :
    ancestors s n = [] := by
  unfold ancestors
  rw [h]

theorem ancestors_of_some {s : Forest} {n p : Nat} (h : parent s n = some p) :
    ancestors s n = pathOf s p := by
  unfold ancestors
  rw [h]

theorem checkLoop_self (s : Forest) (a : Nat) :
    checkLoop s a (some a) = some Err.loopError := by
  simp [checkLoop]

theorem checkLoop_none_elim {s : Forest} {c n : Nat}
    (h : checkLoop s c (some n) = none) : ¬(c = n ∨ c ∈ ancestors s n) := by
  unfold checkLoop at h
  dsimp only at h
  by_cases h1 : n = c
  · rw [if_pos h1] at h
    exact Option.noConfusion h
  · rw [if_neg h1] at h
    by_cases h2 : (ancestors s n).any (· == c)
    · rw [if_pos h2] at h
      exact Option.noConfusion h
    · rintro (rfl | hmem)
      · exact h1 rfl
      · apply h2
        rw [List.any_eq_true]
        exact ⟨c, hmem, by simp⟩

theorem checkLoop_of_anc {s : Forest} {a b : Nat} (h : b ∈ ancestors s a) :
    checkLoop s b (some a) = some Err.loopError := by
  unfold checkLoop
  dsimp only
  by_cases hab : a = b
  · rw [if_pos hab]
  · rw [if_neg hab, if_pos]
    rw [List.any_eq_true]
    exact ⟨b, h, by simp⟩

theorem checkLoop_some_cases (s : Forest) (c n : Nat) :
    checkLoop s c (some n) = none ∨ checkLoop s c (some n) = some Err.loopError := by
  unfold checkLoop
  dsimp only
  by_cases h1 : n = c
  · right; rw [if_pos h1]
  · rw [if_neg h1]
    by_cases h2 : (ancestors s n).any (· == c)
    · right; rw [if_pos h2]
    · left; rw [if_neg h2]

theorem checkChildrenAux_eq_none : ∀ (seen cs : List Nat),
    checkChildrenAux seen cs = none ↔ (cs.Nodup ∧ ∀ c ∈ cs, c ∉ seen) := by
  intro seen cs
  induction cs generalizing seen with
  | nil => simp [checkChildrenAux]
  | cons c rest ih =>
    unfold checkChildrenAux
    by_cases hc : c ∈ seen
    · simp only [if_pos hc]
      constructor
      · intro h; exact Option.noConfusion h
      · rintro ⟨-, hall⟩
        exact absurd hc (hall c (List.mem_cons_self c rest))
    · rw [if_neg hc, ih]
      constructor
      · rintro ⟨hnd, hall⟩
        refine ⟨List.nodup_cons.mpr ⟨?_, hnd⟩, ?_⟩
        · intro hcr
          exact (hall c hcr) (List.mem_cons_self c seen)
        · intro x hx
          rcases List.mem_cons.mp hx with rfl | hxr
          · exact hc
          · exact fun hxs => hall x hxr (List.mem_cons_of_mem _ hxs)
      · rintro ⟨hnd, hall⟩
        obtain ⟨hcr, hnd'⟩ := List.nodup_cons.mp hnd
        refine ⟨hnd', ?_⟩
        intro x hx hxs
        rcases List.mem_cons.mp hxs with rfl | hxseen
        · exact hcr hx
        · exact hall x (List.mem_cons_of_mem _ hx) hxseen

theorem checkChildrenAux_of_ne : ∀ (seen cs : List Nat),
    checkChildrenAux seen cs ≠ none → checkChildrenAux seen cs = some Err.treeError := by
  intro seen cs
  induction cs generalizing seen with
  | nil => intro h; exact absurd rfl h
  | cons c rest ih =>
    intro h
    unfold checkChildrenAux at h ⊢
    by_cases hc : c ∈ seen
    · rw [if_pos hc]
    · rw [if_neg hc] at h ⊢
      exact ih _ h

theorem checkChildren_of_dup {cs : List Nat} (h : ¬ cs.Nodup) :
    checkChildren cs = some Err.treeError := by
  unfold checkChildren
  apply checkChildrenAux_of_ne
  intro hnone
  rw [checkChildrenAux_eq_none] at hnone
  exact h hnone.1

theorem checkChildren_of_nodup {cs : List Nat} (h : cs.Nodup) :
    checkChildren cs = none := by
  rw [checkChildren, checkChildrenAux_eq_none]
  exact ⟨h, by simp⟩

theorem checkLoopAll_of_fail {s : Forest} {n : Nat} {cs : List Nat}
    (h : ∃ c ∈ cs, c = n ∨ c ∈ ancestors s n) :
    checkLoopAll s n cs = some Err.loopError := by
  induction cs with
  | nil => simp at h
  | cons c rest ih =>
    unfold checkLoopAll
    rcases checkLoop_some_cases s c n with hc | hc
    · rw [hc]
      obtain ⟨x, hx, hxf⟩ := h
      rcases List.mem_cons.mp hx with rfl | hxr
      · exact absurd hxf (checkLoop_none_elim hc)
      · exact ih ⟨x, hxr, hxf⟩
    · rw [hc]

/-! ### Ranking functions: behavioural acyclicity of a finite heap

A real tree admits a rank that strictly decreases along parent links (for
instance the depth read bottom-up) and one that strictly increases along
child links; both stay within the heap size.  These decidable predicates let
the fuelled walks be run to completion. -/

def Ranked (s : Forest) (r : Nat → Nat) : Prop :=
  ∀ n ∈ domain s, r n ≤ s.nodes.length ∧ ∀ p ∈ (parent s n).toList, r p < r n

def ChildRanked (s : Forest) (r : Nat → Nat) : Prop :=
  ∀ n ∈ domain s, r n ≤ s.nodes.length ∧ ∀ c ∈ children s n, c ∈ domain s ∧ r n < r c

instance (s : Forest) (r : Nat → Nat) : Decidable (Ranked s r) := by
  unfold Ranked
  infer_instance

instance (s : Forest) (r : Nat → Nat) : Decidable (ChildRanked s r) := by
  unfold ChildRanked
  infer_instance

theorem rank_le_of_mem_iter {s : Forest} {r : Nat → Nat} (hr : Ranked s r) :
    ∀ fuel n m, m ∈ iterPathReverse s fuel n → r m ≤ r n := by
  intro fuel
  induction fuel with
  | zero =>
    intro n m hm
    simp [iterPathReverse] at hm
  | succ fuel ih =>
    intro n m hm
    cases hp : parent s n with
    | none =>
      rw [iterPathReverse_succ_none fuel hp, List.mem_singleton] at hm
      exact hm ▸ le_refl _
    | some p =>
      rw [iterPathReverse_succ_some fuel hp, List.mem_cons] at hm
      rcases hm with rfl | hm'
      · exact le_refl _
      · have hn : n ∈ domain s := mem_domain_of_parent s n hp
        have hlt : r p < r n := (hr n hn).2 p (by simp [hp])
        exact le_trans (ih p m hm') (le_of_lt hlt)

theorem iter_stable {s : Forest} {r : Nat → Nat} (hr : Ranked s r) :
    ∀ f1 f2 n, 0 < f1 → 0 < f2 → (n ∈ domain s → r n < f1) → (n ∈ domain s → r n < f2) →
    iterPathReverse s f1 n = iterPathReverse s f2 n := by
  intro f1
  induction f1 with
  | zero => intro f2 n h1; omega
  | succ f1 ih =>
    intro f2 n h1 h2 hb1 hb2
    cases f2 with
    | zero => omega
    | succ f2 =>
      cases hp : parent s n with
      | none => rw [iterPathReverse_succ_none f1 hp, iterPathReverse_succ_none f2 hp]
      | some p =>
        rw [iterPathReverse_succ_some f1 hp, iterPathReverse_succ_some f2 hp]
        have hn : n ∈ domain s := mem_domain_of_parent s n hp
        have hpd : r p < r n := (hr n hn).2 p (by simp [hp])
        have hrn1 : r n < f1 + 1 := hb1 hn
        have hrn2 : r n < f2 + 1 := hb2 hn
        rw [ih f2 p (by omega) (by omega) (fun _ => by omega) (fun _ => by omega)]

theorem height_stable {s : Forest} {r : Nat → Nat} (hr : ChildRanked s r) :
    ∀ f1 f2 n, s.nodes.length - r n < f1 → s.nodes.length - r n < f2 →
    height s f1 n = height s f2 n := by
  intro f1
  induction f1 with
  | zero => intro f2 n h1; omega
  | succ f1 ih =>
    intro f2 n h1 h2
    cases f2 with
    | zero => omega
    | succ f2 =>
      by_cases hcn : (children s n).length = 0
      · unfold height
        rw [if_pos hcn, if_pos hcn]
      · have hne : children s n ≠ [] := fun he => hcn (by rw [he]; rfl)
        have hn : n ∈ domain s := mem_domain_of_children_ne s n hne
        unfold height
        rw [if_neg hcn, if_neg hcn]
        have hmapeq : (children s n).map (height s f1) = (children s n).map (height s f2) := by
          apply List.map_congr_left
          intro c hc
          obtain ⟨hcd, hlt⟩ := (hr n hn).2 c hc
          have hcb : r c ≤ s.nodes.length := (hr c hcd).1
          exact ih f2 c (by omega) (by omega)
        rw [hmapeq]

theorem countP_eq_one_of_unique {l : List Nat} {P : Nat → Bool} {x : Nat}
    (hx : x ∈ l) (hnd : l.Nodup) (hPx : P x = true)
    (huniq : ∀ y ∈ l, P y = true → y = x) : l.countP P = 1 := by
  induction l with
  | nil => simp at hx
  | cons a l ih =>
    rw [List.countP_cons]
    obtain ⟨hal, hnd'⟩ := List.nodup_cons.mp hnd
    rcases List.mem_cons.mp hx with rfl | hxl
    · rw [if_pos hPx]
      have h0 : l.countP P = 0 := by
        rw [List.countP_eq_zero]
        intro y hy hPy
        have hyx := huniq y (List.mem_cons_of_mem _ hy) hPy
        subst hyx
        exact hal hy
      omega
    · have hPa : ¬ P a = true := by
        intro hPa
        have hax := huniq a (List.mem_cons_self a l) hPa
        subst hax
        exact hal hxl
      rw [if_neg hPa]
      have h1 := ih hxl hnd' (fun y hy hPy => huniq y (List.mem_cons_of_mem _ hy) hPy)
      omega

/-! ### The claims -/

/-- Claim C4: an identity-duplicated candidate list makes the `children`
setter fail with `TreeError`, and a candidate that is an ancestor-or-self of
the assigned node makes it fail with `LoopError`; both checks run before any
mutation, so the heap (in particular the node's children and every
candidate's parent) is returned exactly as it was. -/
theorem c4_children_validation (s : Forest) (n : Nat) (csDup csLoop : List Nat)
    (hdup : ¬ csDup.Nodup) (hnd : csLoop.Nodup)
    (hloop : ∃ c ∈ csLoop, c = n ∨ c ∈ ancestors s n) :
    setChildren s n csDup = (s, some Err.treeError) ∧
    setChildren s n csLoop = (s, some Err.loopError) := by
  constructor
  · unfold setChildren
    rw [checkChildren_of_dup hdup]
  · unfold setChildren
    rw [checkChildren_of_nodup hnd]
    dsimp only
    rw [checkLoopAll_of_fail hloop]

/-- Claim C5: for every node `A` the self-assignment `A.parent = A` fails
with `LoopError`, and whenever `B` is an ancestor of `A` the assignment
`B.parent = A` fails with `LoopError`; in both cases the heap is returned
untouched, so every parent and child list is as before. -/
theorem c5_loop_detection (s : Forest) (a b : Nat) :
    setParent s a (some a) = (s, some Err.loopError) ∧
    (b ∈ ancestors s a → setParent s b (some a) = (s, some Err.loopError)) :=
  ⟨setParent_of_checkLoop_some (checkLoop_self s a),
   fun hanc => setParent_of_checkLoop_some (checkLoop_of_anc hanc)⟩

/-- Claim C7: in every heap reachable through the public interface
(construction, setting or deleting `parent`, setting or deleting `children`,
whether the operation returns or raises), node `a` is `b`'s parent exactly
when `b` occurs exactly once (by identity) in `a`'s child list. -/
theorem c7_bidirectional (s : Forest) (hs : Reachable s) (a b : Nat) :
    parent s b = some a ↔ (children s a).count b = 1 := by
  have h := reachable_inv hs
  constructor
  · intro hp
    obtain ⟨lid, hlid, hleft, hright, had, hmem, -⟩ := h.parentBundle hp
    rw [children_eq_filterMap, List.count_filterMap]
    apply countP_eq_one_of_unique hmem (h.childNodup a had)
    · simp [hright]
    · intro y hy hPy
      have hy' : (getLink s y).right = some b := by simpa using hPy
      obtain ⟨-, -, c, -, hr2, hpar2⟩ := h.childLinkOK a had y hy
      have hcb : c = b := by
        rw [hr2] at hy'
        exact Option.some_injective _ hy'
      subst hcb
      rw [hlid] at hpar2
      exact (Option.some_injective _ hpar2).symm
  · intro hc
    have hbmem : b ∈ children s a := by
      have hpos : 0 < (children s a).count b := by omega
      exact List.count_pos_iff.mp hpos
    have had : a ∈ domain s := by
      apply mem_domain_of_children_ne s a
      intro he
      rw [he] at hbmem
      simp at hbmem
    exact h.parent_of_mem_children had hbmem

/-- Claim C8: on an acyclic heap, re-assigning a node's current parent is a
complete no-op — the operation succeeds and returns the heap unchanged, so
no hook fires and no structure moves. -/
theorem c8_idempotent_noop (s : Forest) (b p : Nat) (r : Nat → Nat)
    (hr : Ranked s r) (hp : parent s b = some p) :
    setParent s b (some p) = (s, none) := by
  have hb : b ∈ domain s := mem_domain_of_parent s b hp
  have hself : p ≠ b := by
    intro he
    have hlt := (hr b hb).2 p (by simp [hp])
    rw [he] at hlt
    exact absurd hlt (lt_irrefl _)
  have hnanc : ¬ ((ancestors s p).any (· == b) = true) := by
    intro hany
    rw [List.any_eq_true] at hany
    obtain ⟨x, hx, hxb⟩ := hany
    have hxb' : x = b := by simpa using hxb
    rw [hxb'] at hx
    cases hq : parent s p with
    | none => rw [ancestors_of_none hq] at hx; simp at hx
    | some q =>
      rw [ancestors_of_some hq] at hx
      unfold pathOf at hx
      rw [List.mem_reverse] at hx
      have h1 : r b ≤ r q := rank_le_of_mem_iter hr _ q b hx
      have hpd : p ∈ domain s := mem_domain_of_parent s p hq
      have h2 : r q < r p := (hr p hpd).2 q (by simp [hq])
      have h3 : r p < r b := (hr b hb).2 p (by simp [hp])
      omega
  have hc : checkLoop s b (some p) = none := by
    unfold checkLoop
    dsimp only
    rw [if_neg hself, if_neg hnanc]
  exact setParent_of_noop hc hp

/-- Claim C10: deleting the parent of a node that has none is a complete
no-op — no error, no hook, and the heap is returned unchanged. -/
theorem c10_del_parent_noop (s : Forest) (n : Nat) (h : parent s n = none) :
    delParent s n = (s, none) := by
  unfold delParent
  rw [h]

theorem height_succ (s : Forest) (fuel n : Nat) :
    height s (fuel + 1) n = if (children s n).length = 0 then 0
      else ((children s n).map (height s fuel)).foldl max 0 + 1 := by
  conv_lhs => rw [height]

/-- Claim C9: on an acyclic heap, every node's `height` is 0 when it has no
children and otherwise 1 plus the maximum of its children's heights, and its
`depth` is 0 when it has no parent, while the depth of any node that has a
parent is that parent's depth plus 1. -/
theorem c9_height_depth (s : Forest) (rUp rDn : Nat → Nat)
    (hup : Ranked s rUp) (hdn : ChildRanked s rDn) (n : Nat) :
    (children s n = [] → heightD s n = 0) ∧
    (children s n ≠ [] → heightD s n = ((children s n).map (heightD s)).foldl max 0 + 1) ∧
    (parent s n = none → depthD s n = 0) ∧
    (∀ p, parent s n = some p → depthD s n = depthD s p + 1) := by
  refine ⟨?_, ?_, ?_, ?_⟩
  · intro h
    unfold heightD fuelOf
    rw [height_succ, if_pos (by rw [h]; rfl)]
  · intro h
    have hn : n ∈ domain s := mem_domain_of_children_ne s n h
    have hlen : ¬ ((children s n).length = 0) := by
      intro h0
      exact h (List.length_eq_zero.mp h0)
    have hpos : 0 < s.nodes.length := by
      have h1 : domain s ≠ [] := List.ne_nil_of_mem hn
      have h2 : (domain s).length = s.nodes.length := by simp [domain]
      have h3 : 0 < (domain s).length := List.length_pos.mpr h1
      omega
    unfold heightD fuelOf
    rw [height_succ, if_neg hlen]
    congr 2
    apply List.map_congr_left
    intro x hx
    obtain ⟨hxd, hlt⟩ := (hdn n hn).2 x hx
    have hxb : rDn x ≤ s.nodes.length := (hdn x hxd).1
    show height s s.nodes.length x = heightD s x
    unfold heightD fuelOf
    exact height_stable hdn _ _ x (by omega) (by omega)
  · intro h
    unfold depthD fuelOf
    rw [iterPathReverse_succ_none _ h]
    rfl
  · intro p hcp
    have hc : n ∈ domain s := mem_domain_of_parent s n hcp
    have h1 : rUp p < rUp n := (hup n hc).2 p (by simp [hcp])
    have h2 : rUp n ≤ s.nodes.length := (hup n hc).1
    unfold depthD fuelOf
    rw [iterPathReverse_succ_some _ hcp]
    have hstab : iterPathReverse s s.nodes.length p =
        iterPathReverse s (s.nodes.length + 1) p :=
      iter_stable hup _ _ p (by omega) (by omega) (fun _ => by omega) (fun _ => by omega)
    rw [hstab]
    have hlp : 0 < (iterPathReverse s (s.nodes.length + 1) p).length :=
      iterPathReverse_length_pos s _ p (by omega)
    simp only [List.length_cons]
    omega

theorem parent_link_none_of_parent_none {s : Forest} (h : Inv s) {b : Nat}
    (hb : b ∈ domain s) (hp : parent s b = none) :
    (getNode s b).parent_link = none := by
  cases hpl : (getNode s b).parent_link with
  | none => rfl
  | some lid =>
    obtain ⟨hr, p, hpd, hl, hm⟩ := h.parentLinkOK b hb lid (by simp [hpl])
    unfold parent at hp
    rw [hpl] at hp
    dsimp only at hp
    rw [hl] at hp
    exact Option.noConfusion hp

/-- Erasing the connecting link from the parent's `__child_links` removes
exactly that child from the `children` view, keeping the rest in order. -/
theorem children_erase_view {s : Forest} (h : Inv s) {pn b lid : Nat}
    (hpd : pn ∈ domain s)
    (hmem : lid ∈ (getNode s pn).child_links)
    (hright : (getLink s lid).right = some b)
    (hpar : (getNode s b).parent_link = some lid) :
    ((getNode s pn).child_links.erase lid).filterMap (fun l => (getLink s l).right) =
      (children s pn).erase b := by
  obtain ⟨l1, l2, hsplit⟩ := List.append_of_mem hmem
  have hnd := h.childNodup pn hpd
  rw [hsplit] at hnd
  have hl1 : lid ∉ l1 := fun hm =>
    ((List.nodup_append.mp hnd).2.2 hm) (List.mem_cons_self _ _)
  have hbf : b ∉ l1.filterMap (fun l => (getLink s l).right) := by
    intro hbmem
    rw [List.mem_filterMap] at hbmem
    obtain ⟨l', hl', hf⟩ := hbmem
    have hl'mem : l' ∈ (getNode s pn).child_links := by
      rw [hsplit]
      exact List.mem_append_left _ hl'
    obtain ⟨-, -, c, -, hr2, hpar2⟩ := h.childLinkOK pn hpd l' hl'mem
    have hcb : c = b := by
      rw [hr2] at hf
      exact Option.some_injective _ hf
    subst hcb
    rw [hpar] at hpar2
    have hle : lid = l' := Option.some_injective _ hpar2
    exact hl1 (hle ▸ hl')
  rw [children_eq_filterMap, hsplit, List.erase_append_right _ hl1,
      List.erase_cons_head, List.filterMap_append, List.filterMap_append,
      @List.filterMap_cons_some _ _ (fun l => (getLink s l).right) lid l2 b hright,
      List.erase_append_right _ hbf, List.erase_cons_head]

/-- Claim C2 (amended): assigning `None` to `parent` raises `AttributeError`
inside the loop check and returns the heap untouched; clearing the parent is
instead done by the `parent` deleter, which performs only the detach half:
it clears the node's parent reference, removes it (exactly) from the former
parent's child list keeping the remaining children in order, and leaves
every other node, the node's own children, the former parent's own parent,
and all links unchanged. -/
theorem c2_del_parent_amended (s : Forest) (n p : Nat) (r : Nat → Nat)
    (hInv : Inv s) (hr : Ranked s r) (hp : parent s n = some p) :
    setParent s n none = (s, some Err.attributeError) ∧
    (delParent s n).snd = none ∧
    parent (delParent s n).fst n = none ∧
    children (delParent s n).fst p = (children s p).erase n ∧
    (getNode (delParent s n).fst n).child_links = (getNode s n).child_links ∧
    (getNode (delParent s n).fst p).parent_link = (getNode s p).parent_link ∧
    (∀ m, m ≠ n → m ≠ p → getNode (delParent s n).fst m = getNode s m) ∧
    (delParent s n).fst.links = s.links := by
  have hn : n ∈ domain s := mem_domain_of_parent s n hp
  have hnp : n ≠ p := by
    intro he
    have hlt := (hr n hn).2 p (by simp [hp])
    rw [he] at hlt
    exact absurd hlt (lt_irrefl _)
  have hdel : delParent s n = detach s n := by
    unfold delParent
    rw [hp]
  obtain ⟨lid, hlid, hright, hleft, hpd, hmem, hld, hsnd, hlinks, hnext, hdom,
    hgb, hgp, hgo, hlog⟩ := detach_some_spec hInv hp
  rw [hdel]
  refine ⟨rfl, hsnd, ?_, ?_, ?_, ?_, hgo, hlinks⟩
  · unfold parent
    rw [hgb]
  · rw [children_eq_filterMap, hgp hnp]
    dsimp only
    have hfeq : (fun l => (getLink (detach s n).fst l).right) =
        (fun l => (getLink s l).right) := by
      funext l
      rw [detach_getLink hInv hp]
    rw [hfeq]
    exact children_erase_view hInv hpd hmem hright hlid
  · rw [hgb]
    simp [hnp]
  · rw [hgp hnp]

/-- Claim C6 (amended): when `B`'s current parent is not already `A`, a
successful `B.parent = A` sets `B`'s parent reference to `A`, appends `B` at
the end of `A`'s child list — where it then occurs exactly once by identity
— and, if `B` had a former parent, removes `B` from that parent's child
list, keeping its other children in their previous order. -/
theorem c6_reparent_amended (s : Forest) (a b : Nat) (hInv : Inv s)
    (hb : b ∈ domain s) (ha : a ∈ domain s)
    (hne : parent s b ≠ some a) (hok : (setParent s b (some a)).snd = none) :
    parent (setParent s b (some a)).fst b = some a ∧
    children (setParent s b (some a)).fst a = children s a ++ [b] ∧
    (children (setParent s b (some a)).fst a).count b = 1 ∧
    (∀ pOld, parent s b = some pOld →
      children (setParent s b (some a)).fst pOld = (children s pOld).erase b) := by
  have hc : checkLoop s b (some a) = none := by
    rcases hcc : checkLoop s b (some a) with _ | e
    · rfl
    · rw [setParent_of_checkLoop_some hcc] at hok
      simp at hok
  have hab : a ≠ b := by
    intro he
    exact (checkLoop_none_elim hc) (Or.inl he.symm)
  have hsp : setParent s b (some a) = attach (detach s b).fst b a :=
    setParent_of_move hc hne (detach_ok hInv hb)
  have hI1 : Inv (detach s b).fst := Inv_detach hInv hb
  have hd1 : domain (detach s b).fst = domain s := detach_domain s b
  have hb1 : b ∈ domain (detach s b).fst := by rw [hd1]; exact hb
  have ha1 : a ∈ domain (detach s b).fst := by rw [hd1]; exact ha
  have hpl1 : (getNode (detach s b).fst b).parent_link = none :=
    detach_parent_link_none hInv hb
  obtain ⟨hsnd2, hlinks2, hnext2, hdom2, hgb2, hgp2, hgo2, hlog2⟩ :=
    attach_spec hI1 hb1 ha1 hpl1
  have hglold : ∀ l, l ∈ linkDom (detach s b).fst →
      getLink (attach (detach s b).fst b a).fst l = getLink (detach s b).fst l :=
    fun l hl => attach_getLink_ne hI1 hb1 ha1 hpl1 l (Nat.ne_of_lt (hI1.linksFresh l hl))
  have hglnew : getLink (attach (detach s b).fst b a).fst ((detach s b).fst).nextLink =
      ⟨some a, some b⟩ := attach_getLink_new hI1 hb1 ha1 hpl1
  rw [hsp]
  -- `children` of `a` is untouched by the detach half
  have hchs1a : children (detach s b).fst a = children s a := by
    cases hpb0 : parent s b with
    | none =>
      have hpl : (getNode s b).parent_link = none :=
        parent_link_none_of_parent_none hInv hb hpb0
      have hdid : detach s b = (s, none) := by
        unfold detach
        rw [hpl]
      rw [hdid]
    | some pOld =>
      have hpa : pOld ≠ a := fun he => hne (he ▸ hpb0)
      obtain ⟨lid0, hlid0, hright0, hleft0, hpd0, hmem0, hld0, -, hlinks0, -, -,
        hgb0, hgp0, hgo0, -⟩ := detach_some_spec hInv hpb0
      have hfeq : (fun l => (getLink (detach s b).fst l).right) =
          (fun l => (getLink s l).right) := by
        funext l
        rw [detach_getLink hInv hpb0]
      rw [children_eq_filterMap, children_eq_filterMap, hgo0 a hab (Ne.symm hpa), hfeq]
  -- the new parent reference of `b`
  have hpb : parent (attach (detach s b).fst b a).fst b = some a := by
    unfold parent
    rw [hgb2]
    dsimp only
    rw [hglnew]
  -- the new child list of `a`
  have hchild_a : children (attach (detach s b).fst b a).fst a = children s a ++ [b] := by
    rw [children_eq_filterMap, hgp2 (Ne.symm hab)]
    dsimp only
    rw [List.filterMap_append]
    have hfm1 : (getNode (detach s b).fst a).child_links.filterMap
        (fun l => (getLink (attach (detach s b).fst b a).fst l).right) =
        children (detach s b).fst a := by
      rw [children_eq_filterMap]
      apply List.filterMap_congr
      intro x hx
      have hxd : x ∈ linkDom (detach s b).fst := (hI1.childLinkOK a ha1 x hx).1
      rw [hglold x hxd]
    have hfm2 : ([(detach s b).fst.nextLink] : List Nat).filterMap
        (fun l => (getLink (attach (detach s b).fst b a).fst l).right) = [b] := by
      rw [@List.filterMap_cons_some _ _
          (fun l => (getLink (attach (detach s b).fst b a).fst l).right)
          ((detach s b).fst.nextLink) [] b (by dsimp only; rw [hglnew])]
      rfl
    rw [hfm1, hfm2, hchs1a]
  have hbnot : b ∉ children s a := by
    intro hmemb
    exact hne (hInv.parent_of_mem_children ha hmemb)
  refine ⟨hpb, hchild_a, ?_, ?_⟩
  · rw [hchild_a, List.count_append]
    have h0 : (children s a).count b = 0 := List.count_eq_zero.mpr hbnot
    simp [h0]
  · intro pOld hpOld
    have hpa : pOld ≠ a := fun he => hne (he ▸ hpOld)
    obtain ⟨lid0, hlid0, hright0, hleft0, hpd0, hmem0, hld0, -, hlinks0, -, -,
      hgb0, hgp0, hgo0, -⟩ := detach_some_spec hInv hpOld
    have hldeq : linkDom (detach s b).fst = linkDom s := by
      simp [linkDom, hlinks0]
    -- the detach half erases the link from `pOld`'s list
    have hclp1 : (getNode (detach s b).fst pOld).child_links =
        (getNode s pOld).child_links.erase lid0 := by
      by_cases hbp : b = pOld
      · rw [← hbp, hgb0, if_pos hbp]
      · rw [hgp0 hbp]
    -- the attach half does not touch `pOld`'s list
    have hclp2 : (getNode (attach (detach s b).fst b a).fst pOld).child_links =
        (getNode (detach s b).fst pOld).child_links := by
      by_cases hbp : pOld = b
      · subst hbp
        rw [hgb2, if_neg (Ne.symm hab)]
      · rw [hgo2 pOld hbp hpa]
    rw [children_eq_filterMap, hclp2, hclp1]
    have hfeq : ∀ x ∈ (getNode s pOld).child_links.erase lid0,
        (getLink (attach (detach s b).fst b a).fst x).right = (getLink s x).right := by
      intro x hx
      have hxold : x ∈ (getNode s pOld).child_links := List.mem_of_mem_erase hx
      have hxd : x ∈ linkDom s := (hInv.childLinkOK pOld hpd0 x hxold).1
      rw [hglold x (by rw [hldeq]; exact hxd), detach_getLink hInv hpOld]
    rw [List.filterMap_congr hfeq]
    exact children_erase_view hInv hpd0 hmem0 hright0 hlid0

/-! ### Concrete heaps for witnesses and counterexamples -/

/-- Two nodes: 0 is a root, 1 is its only child. -/
def sPair : Forest :=
  (newNode (newNode Forest.empty 0 0 none none).fst 1 0 (some 0) none).fst

/-- Three nodes: 0 is a root with children [1, 2]. -/
def sTri : Forest :=
  (newNode (newNode (newNode Forest.empty 0 0 none none).fst 1 0 (some 0) none).fst
    2 0 (some 0) none).fst

/-- `sPair` plus a separate root 2. -/
def sC1 : Forest := (newNode sPair 2 0 none none).fst

/-- Root 10 with children [11, 12], plus a separate root 13. -/
def sC3 : Forest :=
  (newNode (newNode (newNode (newNode Forest.empty 10 0 none none).fst
    11 0 (some 10) none).fst 12 0 (some 10) none).fst 13 0 none none).fst

theorem reach_sPair : Reachable sPair :=
  Reachable.newN _ 1 0 (some 0) none
    (Reachable.newN _ 0 0 none none Reachable.init (by decide)
      (fun q hq => Option.noConfusion hq) (fun l hl => Option.noConfusion hl))
    (by decide)
    (fun q hq => by injection hq with h; subst h; decide)
    (fun l hl => Option.noConfusion hl)

theorem reach_sC1 : Reachable sC1 :=
  Reachable.newN _ 2 0 none none reach_sPair (by decide)
    (fun q hq => Option.noConfusion hq) (fun l hl => Option.noConfusion hl)

/-! ### Code-bug evaluations and counterexamples -/

/-- Claim C1 (code evaluation): on the heap `sC1` — root 0 with child 1 and
a separate root 2 — the assignment `children = [2]` is a valid candidate
list (no duplicate, no cycle), yet the setter never detaches the existing
child 1: it appends 2, the trailing `assert len(self.children) ==
len(children)` fails with `AssertionError`, and the children end up `[1, 2]`
instead of `[2]`. -/
theorem c1_children_setter_bug :
    checkChildren [2] = none ∧
    checkLoopAll sC1 0 [2] = none ∧
    children sC1 0 = [1] ∧
    (setChildren sC1 0 [2]).snd = some Err.assertionError ∧
    children (setChildren sC1 0 [2]).fst 0 = [1, 2] := by decide

/-- Claim C3 (code evaluation): on the heap `sC3` — root 10 with children
[11, 12] and a separate root 13 — the assignment `children = [13]` fails
after mutation has begun (node 13 is attached, then the trailing assert
raises), and the children are NOT restored: the error propagates with the
children equal to `[11, 12, 13]`, not the original `[11, 12]`. -/
theorem c3_no_rollback :
    children sC3 10 = [11, 12] ∧
    (setChildren sC3 10 [13]).snd = some Err.assertionError ∧
    children (setChildren sC3 10 [13]).fst 10 = [11, 12, 13] ∧
    children (setChildren sC3 10 [13]).fst 10 ≠ children sC3 10 := by decide

/-- Claim C2 (counterexample): node 1 of `sPair` has parent 0, yet the
assignment `parent = None` raises `AttributeError` (the loop check
dereferences `None`) rather than detaching; the heap is unchanged. -/
theorem c2_counterexample :
    parent sPair 1 = some 0 ∧
    (setParent sPair 1 none).snd = some Err.attributeError ∧
    (setParent sPair 1 none).fst = sPair := by decide

/-- Claim C6 (counterexample): on `sTri` (root 0 with children [1, 2]), the
assignment `1.parent = 0` succeeds, yet node 1 is not appended at the end of
node 0's child list — the list stays `[1, 2]`, whose last element is 2, and
node 1 is also not removed from its previous parent's list. -/
theorem c6_counterexample :
    parent sTri 1 = some 0 ∧
    (setParent sTri 1 (some 0)).snd = none ∧
    children (setParent sTri 1 (some 0)).fst 0 = [1, 2] ∧
    (children (setParent sTri 1 (some 0)).fst 0).getLast? ≠ some 1 := by decide

/-! ### Witnesses -/

theorem c2_del_parent_amended_witness :
    setParent sPair 1 none = (sPair, some Err.attributeError) ∧
    (delParent sPair 1).snd = none ∧
    parent (delParent sPair 1).fst 1 = none ∧
    children (delParent sPair 1).fst 0 = (children sPair 0).erase 1 ∧
    (getNode (delParent sPair 1).fst 1).child_links = (getNode sPair 1).child_links ∧
    (getNode (delParent sPair 1).fst 0).parent_link = (getNode sPair 0).parent_link ∧
    (∀ m, m ≠ 1 → m ≠ 0 → getNode (delParent sPair 1).fst m = getNode sPair m) ∧
    (delParent sPair 1).fst.links = sPair.links :=
  c2_del_parent_amended sPair 1 0 (fun n => n) (reachable_inv reach_sPair)
    (by decide) (by decide)

theorem c4_children_validation_witness :
    setChildren sTri 0 [1, 1] = (sTri, some Err.treeError) ∧
    setChildren sTri 0 [0] = (sTri, some Err.loopError) :=
  c4_children_validation sTri 0 [1, 1] [0] (by decide) (by decide)
    ⟨0, by decide, Or.inl rfl⟩

theorem c5_loop_detection_witness :
    setParent sPair 1 (some 1) = (sPair, some Err.loopError) ∧
    setParent sPair 0 (some 1) = (sPair, some Err.loopError) :=
  ⟨(c5_loop_detection sPair 1 0).1, (c5_loop_detection sPair 1 0).2 (by decide)⟩

theorem c6_reparent_amended_witness :
    parent (setParent sC1 1 (some 2)).fst 1 = some 2 ∧
    children (setParent sC1 1 (some 2)).fst 2 = children sC1 2 ++ [1] ∧
    (children (setParent sC1 1 (some 2)).fst 2).count 1 = 1 ∧
    (∀ pOld, parent sC1 1 = some pOld →
      children (setParent sC1 1 (some 2)).fst pOld = (children sC1 pOld).erase 1) :=
  c6_reparent_amended sC1 2 1 (reachable_inv reach_sC1) (by decide) (by decide)
    (by decide) (by decide)

theorem c7_bidirectional_witness :
    parent sPair 1 = some 0 ↔ (children sPair 0).count 1 = 1 :=
  c7_bidirectional sPair reach_sPair 0 1

theorem c8_idempotent_noop_witness :
    setParent sPair 1 (some 0) = (sPair, none) :=
  c8_idempotent_noop sPair 1 0 (fun n => n) (by decide) (by decide)

theorem c9_height_depth_witness :
    (children sPair 1 = [] → heightD sPair 1 = 0) ∧
    (children sPair 1 ≠ [] → heightD sPair 1 =
      ((children sPair 1).map (heightD sPair)).foldl max 0 + 1) ∧
    (parent sPair 1 = none → depthD sPair 1 = 0) ∧
    (∀ p, parent sPair 1 = some p → depthD sPair 1 = depthD sPair p + 1) :=
  c9_height_depth sPair (fun n => n) (fun n => n) (by decide) (by decide) 1

theorem c10_del_parent_noop_witness : delParent sPair 0 = (sPair, none) :=
  c10_del_parent_noop sPair 0 (by decide)

end Anytree
